import Mathlib

/-!
Verification of the snuba expression translator, matcher and processors.

This file embeds, as executable Lean definitions, the rule-based
expression translator of `snuba/clickhouse/translator/rulesbased.py`, the
structural expression matcher and the UUID column processor of
`snuba/query/processors/uuid_column_processor.py`, the post-replacement
consistency enforcer of
`snuba/datasets/storages/processors/replaced_groups.py`, and the older
condition AST exercised by `tests/query/test_conditions.py`, and proves
properties of those embeddings.

The repository excerpt does not contain `snuba/query/expressions.py`,
`snuba/query/matchers.py` or `snuba/query/conditions.py`; the data types
and combinators defined by those modules are modelled from the
specification (each such definition carries a doc comment saying so),
while everything whose source is present is translated from the source.
-/

namespace Snuba

/-- Modelled from the spec: the scalar values a `Literal` can hold
(`snuba/query/expressions.py` is not part of the excerpt).  The spec lists
null, bool, number, string and date/time scalars; numbers are modelled as
integers and date/time scalars as their string representation.  Sequence
scalars are not needed by any claim and are omitted. -/
inductive Value where
  | null : Value
  | bool (b : Bool) : Value
  | int (n : Int) : Value
  | str (s : String) : Value
deriving DecidableEq, Repr

/-- Modelled from the spec: the Snuba expression AST
(`snuba/query/expressions.py` is not part of the excerpt).  The variants
and their fields follow section 3 of the spec and every construction site
visible in the excerpt (`rulesbased.py`, `uuid_column_processor.py`, the
translator tests).  `curriedFunctionCall.internalFunction` is typed as an
arbitrary expression because the Python dataclass annotation
(`internal_function: FunctionCall`) is not enforced at runtime; the
intended constraint is the separate predicate `wellFormed` below. -/
inductive Expression where
  | column (aliasName : Option String) (tableName : Option String)
      (columnName : String) : Expression
  | literal (aliasName : Option String) (value : Value) : Expression
  | argument (aliasName : Option String) (name : String) : Expression
  | functionCall (aliasName : Option String) (functionName : String)
      (parameters : List Expression) : Expression
  | curriedFunctionCall (aliasName : Option String)
      (internalFunction : Expression)
      (parameters : List Expression) : Expression
  | subscriptableReference (aliasName : Option String) (column : Expression)
      (key : Expression) : Expression
  | lambda (aliasName : Option String) (parameters : List String)
      (transformation : Expression) : Expression
deriving Repr

namespace Expression

/-- Kind test used to state the integrity constraint on curried calls. -/
def isFunctionCall : Expression → Bool
  | .functionCall _ _ _ => true
  | _ => false

def isColumn : Expression → Bool
  | .column _ _ _ => true
  | _ => false

def isLiteral : Expression → Bool
  | .literal _ _ => true
  | _ => false

end Expression

mutual

/-- The well-formedness constraints the Python dataclass type annotations
express: the internal function of a curried call is a `FunctionCall`, the
column of a subscriptable reference is a `Column` and its key a `Literal`
(spec section 3, invariants). -/
def Expression.wellFormed : Expression → Bool
  | .column _ _ _ => true
  | .literal _ _ => true
  | .argument _ _ => true
  | .functionCall _ _ ps => Expression.wellFormedList ps
  | .curriedFunctionCall _ inner ps =>
      inner.isFunctionCall && inner.wellFormed && Expression.wellFormedList ps
  | .subscriptableReference _ col key =>
      col.isColumn && key.isLiteral && col.wellFormed && key.wellFormed
  | .lambda _ _ body => body.wellFormed

/-- Well-formedness of a parameter list. -/
def Expression.wellFormedList : List Expression → Bool
  | [] => true
  | e :: es => e.wellFormed && Expression.wellFormedList es

end

mutual

/-- Structural equality test for expressions, mirroring the (derived)
dataclass equality of the Python expression types. -/
def Expression.beq : Expression → Expression → Bool
  | .column a t c, .column a' t' c' => a == a' && t == t' && c == c'
  | .literal a v, .literal a' v' => a == a' && v == v'
  | .argument a n, .argument a' n' => a == a' && n == n'
  | .functionCall a f ps, .functionCall a' f' ps' =>
      a == a' && f == f' && Expression.beqList ps ps'
  | .curriedFunctionCall a i ps, .curriedFunctionCall a' i' ps' =>
      a == a' && i.beq i' && Expression.beqList ps ps'
  | .subscriptableReference a c k, .subscriptableReference a' c' k' =>
      a == a' && c.beq c' && k.beq k'
  | .lambda a ns b, .lambda a' ns' b' => a == a' && ns == ns' && b.beq b'
  | _, _ => false

/-- Pointwise structural equality of expression lists. -/
def Expression.beqList : List Expression → List Expression → Bool
  | [], [] => true
  | e :: es, e' :: es' => e.beq e' && Expression.beqList es es'
  | _, _ => false

end

instance : BEq Expression := ⟨Expression.beq⟩

/-- Size-based induction principle for expressions; Lean does not generate
a useful structural induction principle for this nested inductive type. -/
theorem Expression.expressionInduction {P : Expression → Prop}
    (hcol : ∀ a t c, P (.column a t c))
    (hlit : ∀ a v, P (.literal a v))
    (harg : ∀ a n, P (.argument a n))
    (hfn : ∀ a f ps, (∀ p ∈ ps, P p) → P (.functionCall a f ps))
    (hcur : ∀ a inner ps, P inner → (∀ p ∈ ps, P p) →
      P (.curriedFunctionCall a inner ps))
    (hsub : ∀ a col key, P col → P key → P (.subscriptableReference a col key))
    (hlam : ∀ a ns body, P body → P (.lambda a ns body)) :
    ∀ e, P e := by
  have main : ∀ n (e : Expression), sizeOf e ≤ n → P e := by
    intro n
    induction n with
    | zero => intro e h; cases e <;> simp at h
    | succ n ih =>
      intro e h
      cases e with
      | column a t c => exact hcol a t c
      | literal a v => exact hlit a v
      | argument a n => exact harg a n
      | functionCall a f ps =>
        refine hfn a f ps fun p hp => ih p ?_
        have := List.sizeOf_lt_of_mem hp
        simp at h; omega
      | curriedFunctionCall a inner ps =>
        refine hcur a inner ps (ih inner ?_) fun p hp => ih p ?_
        · simp at h; omega
        · have := List.sizeOf_lt_of_mem hp
          simp at h; omega
      | subscriptableReference a col key =>
        refine hsub a col key (ih col ?_) (ih key ?_) <;> (simp at h; omega)
      | lambda a ns body =>
        refine hlam a ns body (ih body ?_); simp at h; omega
  exact fun e => main (sizeOf e) e (Nat.le_refl _)

/-- Function `Expression.beq` decides equality, so equality of expressions is
decidable (used to evaluate concrete statements with `decide`). -/
theorem Expression.beq_iff_eq : ∀ e e' : Expression, e.beq e' = true ↔ e = e' := by
  have main : ∀ e e' : Expression, e.beq e' = true ↔ e = e' := by
    intro e
    induction e using Expression.expressionInduction with
    | hcol a t c => intro e'; cases e' <;> simp [Expression.beq, and_assoc]
    | hlit a v => intro e'; cases e' <;> simp [Expression.beq]
    | harg a n => intro e'; cases e' <;> simp [Expression.beq]
    | hfn a f ps ihps =>
      intro e'; cases e' with
      | functionCall a' f' ps' =>
        simp only [Expression.beq, Bool.and_eq_true, Expression.functionCall.injEq]
        constructor
        · rintro ⟨⟨ha, hf⟩, hps⟩
          refine ⟨by simpa using ha, by simpa using hf, ?_⟩
          clear ha hf
          induction ps generalizing ps' with
          | nil => cases ps' <;> simp_all [Expression.beqList]
          | cons p ps ihtail =>
            cases ps' with
            | nil => simp [Expression.beqList] at hps
            | cons q qs =>
              simp only [Expression.beqList, Bool.and_eq_true] at hps
              have h1 := (ihps p (by simp)) q
              have h2 := ihtail (fun x hx => ihps x (by simp [hx])) qs hps.2
              simp_all
        · rintro ⟨ha, hf, rfl⟩
          refine ⟨⟨by simpa using ha, by simpa using hf⟩, ?_⟩
          induction ps with
          | nil => simp [Expression.beqList]
          | cons p ps ihtail =>
            simp only [Expression.beqList, Bool.and_eq_true]
            exact ⟨(ihps p (by simp) p).mpr rfl,
              ihtail (fun x hx => ihps x (by simp [hx]))⟩
      | _ => simp [Expression.beq]
    | hcur a inner ps ihinner ihps =>
      intro e'; cases e' with
      | curriedFunctionCall a' i' ps' =>
        simp only [Expression.beq, Bool.and_eq_true,
          Expression.curriedFunctionCall.injEq]
        constructor
        · rintro ⟨⟨ha, hi⟩, hps⟩
          refine ⟨by simpa using ha, (ihinner i').mp hi, ?_⟩
          clear ha hi
          induction ps generalizing ps' with
          | nil => cases ps' <;> simp_all [Expression.beqList]
          | cons p psx ihtail =>
            cases ps' with
            | nil => simp [Expression.beqList] at hps
            | cons q qs =>
              simp only [Expression.beqList, Bool.and_eq_true] at hps
              have h1 := (ihps p (by simp)) q
              have h2 := ihtail (fun x hx => ihps x (by simp [hx])) qs hps.2
              simp_all
        · rintro ⟨ha, hi, rfl⟩
          refine ⟨⟨by simpa using ha, (ihinner i').mpr hi⟩, ?_⟩
          induction ps with
          | nil => simp [Expression.beqList]
          | cons p psx ihtail =>
            simp only [Expression.beqList, Bool.and_eq_true]
            exact ⟨(ihps p (by simp) p).mpr rfl,
              ihtail (fun x hx => ihps x (by simp [hx]))⟩
      | _ => simp [Expression.beq]
    | hsub a col key ihc ihk =>
      intro e'; cases e' with
      | subscriptableReference a' c' k' =>
        simp [Expression.beq, ihc c', ihk k', and_assoc]
      | _ => simp [Expression.beq]
    | hlam a ns body ihb =>
      intro e'; cases e' with
      | lambda a' ns' b' => simp [Expression.beq, ihb b', and_assoc]
      | _ => simp [Expression.beq]
  exact main

instance : DecidableEq Expression := fun e e' =>
  decidable_of_iff _ (Expression.beq_iff_eq e e')

/-! ## The rule-based translator (`snuba/clickhouse/translator/rulesbased.py`)

An `ExpressionMapper` (`snuba/datasets/plans/translator/mapper.py`) exposes
`attempt_map(expression, children_translator) → Optional[out]` and, per its
documented contract, never throws.  A rule is represented extensionally by
the function from the input expression to the optional result it computes
against the (fixed, deterministic) translator it is registered in. -/

/-- One translation rule, as registered in a `TranslationRules` sequence. -/
abbrev Rule := Expression → Option Expression

/-- Structure `TranslationRules` (rulesbased.py lines 32-68): one ordered rule
sequence per expression kind. -/
structure TranslationRules where
  columns : List Rule := []
  literals : List Rule := []
  functions : List Rule := []
  curried_functions : List Rule := []
  subscriptables : List Rule := []
  lambdas : List Rule := []
  arguments : List Rule := []

/-- Method `TranslationRules.concat` (rulesbased.py lines 59-68): per-kind
concatenation, `self`'s rules first. -/
def TranslationRules.concat (self spec : TranslationRules) : TranslationRules where
  columns := self.columns ++ spec.columns
  literals := self.literals ++ spec.literals
  functions := self.functions ++ spec.functions
  curried_functions := self.curried_functions ++ spec.curried_functions
  subscriptables := self.subscriptables ++ spec.subscriptables
  lambdas := self.lambdas ++ spec.lambdas
  arguments := self.arguments ++ spec.arguments

/-- The failures the translator can raise.  `unresolvedTranslation` is the
`ValueError("Cannot map expression ...")` of `__map_expression`
(rulesbased.py line 144); `integrityError` stands for the
`assert isinstance(...)` failures of `DefaultSubscriptableMapper`
(lines 214/216) and for the attribute/type errors the other default
mappers would hit on a kind-mismatched input. -/
inductive TranslationError where
  | unresolvedTranslation (e : Expression) : TranslationError
  | integrityError : TranslationError
deriving DecidableEq, Repr

/-- The first-match-wins walk over a rule sequence (`__map_expression`'s
`for r in rules` loop, rulesbased.py lines 140-143). -/
def attemptFirst : List Rule → Expression → Option Expression
  | [], _ => none
  | r :: rs, e =>
    match r e with
    | some ret => some ret
    | none => attemptFirst rs e

/-- Method `__map_expression` (rulesbased.py lines 135-144): walk the configured
rules in order and return the first non-`None` result; the default rule
appended by the constructor is the last element of the walked sequence and
its (already computed) result is passed here as `defaultResult`; when it
too yields `None` the `ValueError` is raised. -/
def mapExpression (rules : List Rule)
    (defaultResult : Except TranslationError (Option Expression))
    (e : Expression) : Except TranslationError Expression :=
  match attemptFirst rules e with
  | some ret => .ok ret
  | none =>
    match defaultResult with
    | .ok (some ret) => .ok ret
    | .ok none => .error (.unresolvedTranslation e)
    | .error err => .error err

/-- Entry point `translate_column` (rulesbased.py line 110): dispatch over the column
rules; the appended `DefaultColumnMapper` (lines 147-151) returns
`deepcopy(expression)` — in value semantics, the expression itself — for
any input. -/
def translate_column (R : TranslationRules) (e : Expression) :
    Except TranslationError Expression :=
  mapExpression R.columns (.ok (some e)) e

/-- Entry point `translate_literal` (line 113); `DefaultLiteralMapper` (lines 154-158)
deep-copies unconditionally. -/
def translate_literal (R : TranslationRules) (e : Expression) :
    Except TranslationError Expression :=
  mapExpression R.literals (.ok (some e)) e

/-- Entry point `translate_argument` (line 132); `DefaultArgumentMapper`
(lines 161-165) deep-copies unconditionally. -/
def translate_argument (R : TranslationRules) (e : Expression) :
    Except TranslationError Expression :=
  mapExpression R.arguments (.ok (some e)) e

mutual

/-- Function `translate_expression`: the visitor dispatch (`accept`) that routes
every expression to the `translate_*` dispatch of its kind.  The visitor
itself lives in `snuba/query/expressions.py` (not part of the excerpt);
its routing is fixed by the per-kind entry points of
`SnubaClickhouseRulesTranslator` (rulesbased.py lines 110-133).  The
bodies of the recursive entry points (`translate_function_call`,
`translate_curried_function_call`, `translate_subscriptable_reference`,
`translate_lambda`) are inlined here so that the recursion is structural;
the named entry points are defined below and proved to agree. -/
def translateExpression (R : TranslationRules) :
    Expression → Except TranslationError Expression
  | .column a t c => translate_column R (.column a t c)
  | .literal a v => translate_literal R (.literal a v)
  | .argument a n => translate_argument R (.argument a n)
  | .functionCall a f ps =>
    -- `translate_function_call` (line 116); `DefaultFunctionMapper`
    -- (lines 168-183) rebuilds the call with every parameter translated.
    mapExpression R.functions
      (match translateExpressionList R ps with
       | .error err => .error err
       | .ok ps' => .ok (some (.functionCall a f ps')))
      (.functionCall a f ps)
  | .curriedFunctionCall a inner ps =>
    -- `translate_curried_function_call` (line 119);
    -- `DefaultCurriedFunctionMapper` (lines 186-204) translates the
    -- internal function through `translate_function_call` (storing
    -- whatever that dispatch returns, unchecked) and the parameters
    -- through the children translator.
    mapExpression R.curried_functions
      (match
          mapExpression R.functions
            (match inner with
             | .functionCall fa fn fps =>
               (match translateExpressionList R fps with
                | .error err => .error err
                | .ok fps' => .ok (some (.functionCall fa fn fps')))
             | _ => .ok none)
            inner with
       | .error err => .error err
       | .ok inner' =>
         match translateExpressionList R ps with
         | .error err => .error err
         | .ok ps' => .ok (some (.curriedFunctionCall a inner' ps')))
      (.curriedFunctionCall a inner ps)
  | .subscriptableReference a col key =>
    -- `translate_subscriptable_reference` (line 124);
    -- `DefaultSubscriptableMapper` (lines 207-217) translates the column
    -- and the key, asserting that they remain a `Column` and a `Literal`.
    mapExpression R.subscriptables
      (match translate_column R col with
       | .error err => .error err
       | .ok col' =>
         if col'.isColumn then
           match translate_literal R key with
           | .error err => .error err
           | .ok key' =>
             if key'.isLiteral then
               .ok (some (.subscriptableReference a col' key'))
             else .error .integrityError
         else .error .integrityError)
      (.subscriptableReference a col key)
  | .lambda a ns body =>
    -- `translate_lambda` (line 129); `DefaultLambdaMapper`
    -- (lines 220-229) rebuilds the lambda with the transformation
    -- translated through the children translator.
    mapExpression R.lambdas
      (match translateExpression R body with
       | .error err => .error err
       | .ok body' => .ok (some (.lambda a ns body')))
      (.lambda a ns body)

/-- Translation of a parameter tuple, element by element (the
`tuple(children_translator.translate_expression(p) for p in
expression.parameters)` comprehensions of the default mappers). -/
def translateExpressionList (R : TranslationRules) :
    List Expression → Except TranslationError (List Expression)
  | [] => .ok []
  | p :: ps =>
    match translateExpression R p with
    | .error err => .error err
    | .ok p' =>
      match translateExpressionList R ps with
      | .error err => .error err
      | .ok ps' => .ok (p' :: ps')

end

/-- Entry point `translate_function_call` (rulesbased.py line 116) as a named entry
point. -/
def translate_function_call (R : TranslationRules) (e : Expression) :
    Except TranslationError Expression :=
  mapExpression R.functions
    (match e with
     | .functionCall a f ps =>
       (match translateExpressionList R ps with
        | .error err => .error err
        | .ok ps' => .ok (some (.functionCall a f ps')))
     | _ => .ok none)
    e

/-- Entry point `translate_curried_function_call` (rulesbased.py line 119) as a named
entry point. -/
def translate_curried_function_call (R : TranslationRules) (e : Expression) :
    Except TranslationError Expression :=
  mapExpression R.curried_functions
    (match e with
     | .curriedFunctionCall a inner ps =>
       (match translate_function_call R inner with
        | .error err => .error err
        | .ok inner' =>
          match translateExpressionList R ps with
          | .error err => .error err
          | .ok ps' => .ok (some (.curriedFunctionCall a inner' ps')))
     | _ => .ok none)
    e

/-- Entry point `translate_subscriptable_reference` (rulesbased.py line 124) as a
named entry point. -/
def translate_subscriptable_reference (R : TranslationRules) (e : Expression) :
    Except TranslationError Expression :=
  mapExpression R.subscriptables
    (match e with
     | .subscriptableReference a col key =>
       (match translate_column R col with
        | .error err => .error err
        | .ok col' =>
          if col'.isColumn then
            match translate_literal R key with
            | .error err => .error err
            | .ok key' =>
              if key'.isLiteral then
                .ok (some (.subscriptableReference a col' key'))
              else .error .integrityError
          else .error .integrityError)
     | _ => .error .integrityError)
    e

/-- Entry point `translate_lambda` (rulesbased.py line 129) as a named entry point. -/
def translate_lambda (R : TranslationRules) (e : Expression) :
    Except TranslationError Expression :=
  mapExpression R.lambdas
    (match e with
     | .lambda a ns body =>
       (match translateExpression R body with
        | .error err => .error err
        | .ok body' => .ok (some (.lambda a ns body')))
     | _ => .error .integrityError)
    e

/-- The visitor dispatch routes every expression to the entry point of its
kind (rulesbased.py lines 110-133). -/
theorem translateExpression_eq_entry (R : TranslationRules) :
    (∀ a t c, translateExpression R (.column a t c)
      = translate_column R (.column a t c))
    ∧ (∀ a v, translateExpression R (.literal a v)
      = translate_literal R (.literal a v))
    ∧ (∀ a n, translateExpression R (.argument a n)
      = translate_argument R (.argument a n))
    ∧ (∀ a f ps, translateExpression R (.functionCall a f ps)
      = translate_function_call R (.functionCall a f ps))
    ∧ (∀ a i ps, translateExpression R (.curriedFunctionCall a i ps)
      = translate_curried_function_call R (.curriedFunctionCall a i ps))
    ∧ (∀ a c k, translateExpression R (.subscriptableReference a c k)
      = translate_subscriptable_reference R (.subscriptableReference a c k))
    ∧ (∀ a ns b, translateExpression R (.lambda a ns b)
      = translate_lambda R (.lambda a ns b)) := by
  refine ⟨fun _ _ _ => rfl, fun _ _ => rfl, fun _ _ => rfl, fun _ _ _ => rfl,
    fun a i ps => ?_, fun _ _ _ => rfl, fun _ _ _ => rfl⟩
  cases i <;> rfl

/-- Walking a concatenated rule sequence tries the first block in full
before any rule of the second block. -/
theorem attemptFirst_append (xs ys : List Rule) (e : Expression) :
    attemptFirst (xs ++ ys) e =
      match attemptFirst xs e with
      | some ret => some ret
      | none => attemptFirst ys e := by
  induction xs with
  | nil => rfl
  | cons r rs ih =>
    simp only [List.cons_append, attemptFirst]
    cases r e <;> simp [ih]

/-- If every rule in the sequence declines, the walk yields nothing. -/
theorem attemptFirst_eq_none (rules : List Rule) (e : Expression)
    (h : ∀ r ∈ rules, r e = none) : attemptFirst rules e = none := by
  induction rules with
  | nil => rfl
  | cons r rs ih =>
    simp only [attemptFirst, h r (by simp)]
    exact ih fun r' hr' => h r' (by simp [hr'])

/-- C3: `TranslationRules.concat` is associative; for every node kind the
per-kind rule list of `A.concat B` is A's list followed by B's list, so
under the first-match-wins walk of `__map_expression` every rule of A is
tried before any rule of B; and a column matched by neither A nor B is
still translated (re-copied) by the appended default rule. -/
theorem concat_composition_order :
    (∀ A B C : TranslationRules,
      (A.concat B).concat C = A.concat (B.concat C))
    ∧ (∀ A B : TranslationRules,
        (A.concat B).columns = A.columns ++ B.columns
        ∧ (A.concat B).literals = A.literals ++ B.literals
        ∧ (A.concat B).functions = A.functions ++ B.functions
        ∧ (A.concat B).curried_functions
            = A.curried_functions ++ B.curried_functions
        ∧ (A.concat B).subscriptables = A.subscriptables ++ B.subscriptables
        ∧ (A.concat B).lambdas = A.lambdas ++ B.lambdas
        ∧ (A.concat B).arguments = A.arguments ++ B.arguments)
    ∧ (∀ (A B : TranslationRules) (e : Expression),
        attemptFirst ((A.concat B).columns) e =
          match attemptFirst A.columns e with
          | some ret => some ret
          | none => attemptFirst B.columns e)
    ∧ (∀ (A B : TranslationRules) (a t : Option String) (c : String),
        (∀ r ∈ (A.concat B).columns, r (.column a t c) = none) →
        translateExpression (A.concat B) (.column a t c)
          = .ok (.column a t c)) := by
  refine ⟨?_, ?_, ?_, ?_⟩
  · intro A B C
    cases A; cases B; cases C
    simp [TranslationRules.concat, List.append_assoc]
  · intro A B
    exact ⟨rfl, rfl, rfl, rfl, rfl, rfl, rfl⟩
  · intro A B e
    exact attemptFirst_append A.columns B.columns e
  · intro A B a t c h
    show translate_column (A.concat B) (.column a t c) = .ok (.column a t c)
    unfold translate_column mapExpression
    rw [attemptFirst_eq_none _ _ h]

/-- Witness for `concat_composition_order`: the only hypothesis (part
four's "no rule of A or B matches") discharged at a concrete rule set. -/
theorem concat_composition_order_witness :
    translateExpression
        (TranslationRules.concat { columns := [fun _ => none] } {})
        (.column none none "col3")
      = .ok (.column none none "col3") :=
  concat_composition_order.2.2.2 { columns := [fun _ => none] } {}
    none none "col3"
    (by
      intro r hr
      simp only [TranslationRules.concat, List.append_nil,
        List.mem_singleton] at hr
      subst hr
      rfl)

/-- A translator result that is not the `ValueError("Cannot map
expression ...")` of `__map_expression`. -/
def NotUnresolved {α : Type} (r : Except TranslationError α) : Prop :=
  ∀ e', r ≠ .error (.unresolvedTranslation e')

/-- Method `__map_expression` can only raise `unresolvedTranslation` when the
appended default rule itself declines or raises it. -/
theorem mapExpression_not_unresolved (rules : List Rule)
    (d : Except TranslationError (Option Expression)) (e : Expression)
    (hd1 : d ≠ .ok none) (hd2 : NotUnresolved d) :
    NotUnresolved (mapExpression rules d e) := by
  intro e'
  unfold mapExpression
  cases hfirst : attemptFirst rules e with
  | some ret => simp
  | none =>
    match hd : d with
    | .ok (some ret) => simp
    | .ok none => exact absurd rfl hd1
    | .error err => simpa using hd2 e'

/-- The column dispatch never fails: the appended `DefaultColumnMapper`
deep-copies any input. -/
theorem translate_column_ok (R : TranslationRules) (e : Expression) :
    ∃ ret, translate_column R e = .ok ret := by
  unfold translate_column mapExpression
  cases attemptFirst R.columns e <;> exact ⟨_, rfl⟩

/-- The literal dispatch never fails: the appended `DefaultLiteralMapper`
deep-copies any input. -/
theorem translate_literal_ok (R : TranslationRules) (e : Expression) :
    ∃ ret, translate_literal R e = .ok ret := by
  unfold translate_literal mapExpression
  cases attemptFirst R.literals e <;> exact ⟨_, rfl⟩

/-- A member of a well-formed parameter list is well-formed. -/
theorem wellFormedList_mem {ps : List Expression}
    (h : Expression.wellFormedList ps = true) :
    ∀ p ∈ ps, p.wellFormed = true := by
  induction ps with
  | nil => simp
  | cons q qs ih =>
    simp only [Expression.wellFormedList, Bool.and_eq_true] at h
    intro p hp
    rcases List.mem_cons.mp hp with rfl | hp'
    · exact h.1
    · exact ih h.2 p hp'

/-- Parameter-list translation only fails the way an element fails. -/
theorem translateExpressionList_not_unresolved (R : TranslationRules)
    (ps : List Expression)
    (h : ∀ p ∈ ps, p.wellFormed = true →
      NotUnresolved (translateExpression R p))
    (hwf : Expression.wellFormedList ps = true) :
    NotUnresolved (translateExpressionList R ps) := by
  induction ps with
  | nil => intro e'; simp [translateExpressionList]
  | cons q qs ih =>
    intro e'
    simp only [Expression.wellFormedList, Bool.and_eq_true] at hwf
    have hq := h q (by simp) hwf.1 e'
    have hqs := ih (fun p hp => h p (by simp [hp])) hwf.2 e'
    simp only [translateExpressionList]
    cases hv : translateExpression R q with
    | error err => rw [hv] at hq; simpa using hq
    | ok v =>
      cases hvs : translateExpressionList R qs with
      | error err => rw [hvs] at hqs; simpa using hqs
      | ok vs => simp

/-- C1 (totality guarantee): for every well-formed expression of any node
kind and an arbitrary `TranslationRules`, the translator never raises the
"no rule matched" `ValueError` of `__map_expression`
(`unresolvedTranslation`): the default rule appended at construction time
for each node kind returns a non-`None` result whenever the dispatched
expression has that kind, which the visitor dispatch guarantees. -/
theorem totality_no_unresolved (R : TranslationRules) (e : Expression)
    (hwf : e.wellFormed = true) (e' : Expression) :
    translateExpression R e ≠ .error (.unresolvedTranslation e') := by
  revert R hwf e'
  induction e using Expression.expressionInduction with
  | hcol a t c =>
    intro R _
    show NotUnresolved (translateExpression R (.column a t c))
    simp only [translateExpression, translate_column]
    exact mapExpression_not_unresolved _ _ _ (by simp) (fun x => by simp)
  | hlit a v =>
    intro R _
    show NotUnresolved (translateExpression R (.literal a v))
    simp only [translateExpression, translate_literal]
    exact mapExpression_not_unresolved _ _ _ (by simp) (fun x => by simp)
  | harg a n =>
    intro R _
    show NotUnresolved (translateExpression R (.argument a n))
    simp only [translateExpression, translate_argument]
    exact mapExpression_not_unresolved _ _ _ (by simp) (fun x => by simp)
  | hfn a f ps ihps =>
    intro R hwf
    simp only [Expression.wellFormed] at hwf
    have hlist := translateExpressionList_not_unresolved R ps
      (fun p hp hpwf => ihps p hp R hpwf) hwf
    show NotUnresolved (translateExpression R (.functionCall a f ps))
    simp only [translateExpression]
    refine mapExpression_not_unresolved _ _ _ ?_ ?_
    · cases hv : translateExpressionList R ps <;> simp
    · intro x
      cases hv : translateExpressionList R ps with
      | error err =>
        have := hlist x
        rw [hv] at this
        simpa using this
      | ok vs => simp
  | hcur a inner ps ihinner ihps =>
    intro R hwf
    simp only [Expression.wellFormed, Bool.and_eq_true] at hwf
    obtain ⟨⟨hkind, hinnerwf⟩, hpswf⟩ := hwf
    have hlist := translateExpressionList_not_unresolved R ps
      (fun p hp hpwf => ihps p hp R hpwf) hpswf
    cases inner with
    | functionCall fa fn fps =>
      have hinner : NotUnresolved
          (translateExpression R (.functionCall fa fn fps)) :=
        fun x => ihinner R hinnerwf x
      show NotUnresolved (translateExpression R (.curriedFunctionCall a _ ps))
      simp only [translateExpression] at hinner ⊢
      refine mapExpression_not_unresolved _ _ _ ?_ ?_
      · cases hv : mapExpression R.functions _ (.functionCall fa fn fps) with
        | error err => simp
        | ok v => cases hvs : translateExpressionList R ps <;> simp
      · intro x
        cases hv : mapExpression R.functions _ (.functionCall fa fn fps) with
        | error err =>
          have := hinner x
          rw [hv] at this
          simpa using this
        | ok v =>
          cases hvs : translateExpressionList R ps with
          | error err =>
            have := hlist x
            rw [hvs] at this
            simpa using this
          | ok vs => simp
    | column _ _ _ => simp [Expression.isFunctionCall] at hkind
    | literal _ _ => simp [Expression.isFunctionCall] at hkind
    | argument _ _ => simp [Expression.isFunctionCall] at hkind
    | curriedFunctionCall _ _ _ => simp [Expression.isFunctionCall] at hkind
    | subscriptableReference _ _ _ => simp [Expression.isFunctionCall] at hkind
    | lambda _ _ _ => simp [Expression.isFunctionCall] at hkind
  | hsub a col key ihc ihk =>
    intro R _
    obtain ⟨colRet, hcol⟩ := translate_column_ok R col
    obtain ⟨keyRet, hkey⟩ := translate_literal_ok R key
    show NotUnresolved (translateExpression R (.subscriptableReference a col key))
    simp only [translateExpression]
    refine mapExpression_not_unresolved _ _ _ ?_ ?_
    · rw [hcol, hkey]
      cases hc : colRet.isColumn <;> cases hk : keyRet.isLiteral <;>
        simp [hc, hk]
    · intro x
      rw [hcol, hkey]
      cases hc : colRet.isColumn <;> cases hk : keyRet.isLiteral <;>
        simp [hc, hk]
  | hlam a ns body ihb =>
    intro R hwf
    simp only [Expression.wellFormed] at hwf
    show NotUnresolved (translateExpression R (.lambda a ns body))
    simp only [translateExpression]
    refine mapExpression_not_unresolved _ _ _ ?_ ?_
    · cases hv : translateExpression R body <;> simp
    · intro x
      cases hv : translateExpression R body with
      | error err =>
        have := ihb R hwf x
        rw [hv] at this
        simpa using this
      | ok v => simp

/-- Witness for `totality_no_unresolved` at a concrete rule set and
expression. -/
theorem totality_no_unresolved_witness :
    translateExpression { columns := [fun _ => none] }
        (.functionCall none "f" [.column none none "c"])
      ≠ .error (.unresolvedTranslation (.column none none "c")) :=
  totality_no_unresolved { columns := [fun _ => none] }
    (.functionCall none "f" [.column none none "c"]) (by rfl)
    (.column none none "c")

/-- The rule set of the C4 counterexample: a single function-call rule
mapping every function call to the literal `None` (the mapper contract
types rules, but nothing at runtime constrains what a rule returns). -/
def functionToLiteralRules : TranslationRules :=
  { functions := [fun _ => some (.literal none .null)] }

/-- C4 (counterexample): translating a `CurriedFunctionCall` through a
rule set whose function rule maps the inner function to a `Literal` does
NOT raise any structural-integrity error: `translate_curried_function_call`
returns a `CurriedFunctionCall` whose `internal_function` is that literal
(a tree `wellFormed` rejects).  No `StructuralIntegrityViolation` exists
in `rulesbased.py`. -/
theorem curried_strict_violation_counterexample :
    translateExpression functionToLiteralRules
        (.curriedFunctionCall none (.functionCall none "f" []) [])
      = .ok (.curriedFunctionCall none (.literal none .null) [])
    ∧ Expression.wellFormed
        (.curriedFunctionCall none (.literal none .null) []) = false :=
  ⟨rfl, rfl⟩

/-! ## Heap-addressed expressions (object identity)

The defensive-copy discipline of the default mappers (`deepcopy` for the
leaves, a fresh dataclass instance for every rebuilt inner node) is a
statement about Python object identity.  To state it, expressions are
paired with the address of the runtime object holding each node; the
defaults-only translation is then re-expressed over addressed nodes with
the allocation of every new object made explicit through an address
counter. -/

/-- An expression tree whose every node carries the address (`id`) of the
object holding it. -/
inductive AExpr where
  | column (id : Nat) (aliasName : Option String) (tableName : Option String)
      (columnName : String) : AExpr
  | literal (id : Nat) (aliasName : Option String) (value : Value) : AExpr
  | argument (id : Nat) (aliasName : Option String) (name : String) : AExpr
  | functionCall (id : Nat) (aliasName : Option String)
      (functionName : String) (parameters : List AExpr) : AExpr
  | curriedFunctionCall (id : Nat) (aliasName : Option String)
      (internalFunction : AExpr) (parameters : List AExpr) : AExpr
  | subscriptableReference (id : Nat) (aliasName : Option String)
      (column : AExpr) (key : AExpr) : AExpr
  | lambda (id : Nat) (aliasName : Option String)
      (parameters : List String) (transformation : AExpr) : AExpr
deriving Repr

mutual

/-- Forget the addresses: the structural value of an addressed tree. -/
def AExpr.erase : AExpr → Expression
  | .column _ a t c => .column a t c
  | .literal _ a v => .literal a v
  | .argument _ a n => .argument a n
  | .functionCall _ a f ps => .functionCall a f (AExpr.eraseList ps)
  | .curriedFunctionCall _ a i ps =>
      .curriedFunctionCall a i.erase (AExpr.eraseList ps)
  | .subscriptableReference _ a c k =>
      .subscriptableReference a c.erase k.erase
  | .lambda _ a ns b => .lambda a ns b.erase

/-- Forget the addresses of a parameter list. -/
def AExpr.eraseList : List AExpr → List Expression
  | [] => []
  | e :: es => e.erase :: AExpr.eraseList es

end

mutual

/-- All addresses occurring in an addressed tree. -/
def AExpr.ids : AExpr → List Nat
  | .column i _ _ _ => [i]
  | .literal i _ _ => [i]
  | .argument i _ _ => [i]
  | .functionCall i _ _ ps => i :: AExpr.idsList ps
  | .curriedFunctionCall i _ inner ps => i :: (inner.ids ++ AExpr.idsList ps)
  | .subscriptableReference i _ c k => i :: (c.ids ++ k.ids)
  | .lambda i _ _ b => i :: b.ids

/-- All addresses occurring in a parameter list. -/
def AExpr.idsList : List AExpr → List Nat
  | [] => []
  | e :: es => e.ids ++ AExpr.idsList es

end

mutual

/-- Python `copy.deepcopy` over addressed nodes: the same structural value, with
every node held by a newly allocated object.  Addresses are drawn from the
counter `n`. -/
def deepcopyA (n : Nat) : AExpr → Nat × AExpr
  | .column _ a t c => (n + 1, .column n a t c)
  | .literal _ a v => (n + 1, .literal n a v)
  | .argument _ a nm => (n + 1, .argument n a nm)
  | .functionCall _ a f ps =>
      let r := deepcopyListA (n + 1) ps
      (r.1, .functionCall n a f r.2)
  | .curriedFunctionCall _ a inner ps =>
      let ri := deepcopyA (n + 1) inner
      let rp := deepcopyListA ri.1 ps
      (rp.1, .curriedFunctionCall n a ri.2 rp.2)
  | .subscriptableReference _ a c k =>
      let rc := deepcopyA (n + 1) c
      let rk := deepcopyA rc.1 k
      (rk.1, .subscriptableReference n a rc.2 rk.2)
  | .lambda _ a ns b =>
      let rb := deepcopyA (n + 1) b
      (rb.1, .lambda n a ns rb.2)

/-- Deep copy of a parameter list. -/
def deepcopyListA (n : Nat) : List AExpr → Nat × List AExpr
  | [] => (n, [])
  | e :: es =>
      let r := deepcopyA n e
      let rs := deepcopyListA r.1 es
      (rs.1, r.2 :: rs.2)

end

mutual

/-- The defaults-only translator of `rulesbased.py` over addressed nodes:
`DefaultColumnMapper`/`DefaultLiteralMapper`/`DefaultArgumentMapper`
deep-copy their node; `DefaultFunctionMapper`, `DefaultCurriedFunctionMapper`
and `DefaultLambdaMapper` allocate one fresh node (`dataclasses.replace` /
a constructor call) around recursively translated children;
`DefaultSubscriptableMapper` allocates a fresh node around the translated
(here: deep-copied, since the column/literal dispatch with no user rules
is the default deep-copy) column and key.  `none` models the errors of
the unaddressed translator (unreachable on well-formed input). -/
def translateDefaultsA (n : Nat) : AExpr → Option (Nat × AExpr)
  | .column i a t c => some (deepcopyA n (.column i a t c))
  | .literal i a v => some (deepcopyA n (.literal i a v))
  | .argument i a nm => some (deepcopyA n (.argument i a nm))
  | .functionCall _ a f ps =>
      match translateDefaultsListA n ps with
      | none => none
      | some (n', ps') => some (n' + 1, .functionCall n' a f ps')
  | .curriedFunctionCall _ a inner ps =>
      match inner with
      | .functionCall fi fa fn fps =>
        (match translateDefaultsA n (.functionCall fi fa fn fps) with
         | none => none
         | some (n1, inner') =>
           match translateDefaultsListA n1 ps with
           | none => none
           | some (n2, ps') =>
             some (n2 + 1, .curriedFunctionCall n2 a inner' ps'))
      | _ => none
  | .subscriptableReference _ a c k =>
      let rc := deepcopyA n c
      match rc.2 with
      | .column ci ca ct cc =>
        (let rk := deepcopyA rc.1 k
         match rk.2 with
         | .literal ki ka kv =>
           some (rk.1 + 1,
             .subscriptableReference rk.1 a (.column ci ca ct cc)
               (.literal ki ka kv))
         | _ => none)
      | _ => none
  | .lambda _ a ns b =>
      match translateDefaultsA n b with
      | none => none
      | some (n', b') => some (n' + 1, .lambda n' a ns b')

/-- Defaults-only translation of a parameter list over addressed nodes. -/
def translateDefaultsListA (n : Nat) : List AExpr → Option (Nat × List AExpr)
  | [] => some (n, [])
  | e :: es =>
      match translateDefaultsA n e with
      | none => none
      | some (n', e') =>
        match translateDefaultsListA n' es with
        | none => none
        | some (n'', es') => some (n'', e' :: es')

end

/-- Size-based induction principle for addressed expressions. -/
theorem AExpr.aexprInduction {P : AExpr → Prop}
    (hcol : ∀ i a t c, P (.column i a t c))
    (hlit : ∀ i a v, P (.literal i a v))
    (harg : ∀ i a n, P (.argument i a n))
    (hfn : ∀ i a f ps, (∀ p ∈ ps, P p) → P (.functionCall i a f ps))
    (hcur : ∀ i a inner ps, P inner → (∀ p ∈ ps, P p) →
      P (.curriedFunctionCall i a inner ps))
    (hsub : ∀ i a col key, P col → P key →
      P (.subscriptableReference i a col key))
    (hlam : ∀ i a ns body, P body → P (.lambda i a ns body)) :
    ∀ e, P e := by
  have main : ∀ n (e : AExpr), sizeOf e ≤ n → P e := by
    intro n
    induction n with
    | zero => intro e h; cases e <;> simp at h
    | succ n ih =>
      intro e h
      cases e with
      | column i a t c => exact hcol i a t c
      | literal i a v => exact hlit i a v
      | argument i a nm => exact harg i a nm
      | functionCall i a f ps =>
        refine hfn i a f ps fun p hp => ih p ?_
        have := List.sizeOf_lt_of_mem hp
        simp at h; omega
      | curriedFunctionCall i a inner ps =>
        refine hcur i a inner ps (ih inner ?_) fun p hp => ih p ?_
        · simp at h; omega
        · have := List.sizeOf_lt_of_mem hp
          simp at h; omega
      | subscriptableReference i a col key =>
        refine hsub i a col key (ih col ?_) (ih key ?_) <;> (simp at h; omega)
      | lambda i a ns body =>
        refine hlam i a ns body (ih body ?_); simp at h; omega
  exact fun e => main (sizeOf e) e (Nat.le_refl _)

/-- With no user rules, parameter-list translation is the identity
(pointwise consequence of the per-element identity). -/
theorem translateExpressionList_defaults_identity (ps : List Expression)
    (h : ∀ p ∈ ps, p.wellFormed = true → translateExpression {} p = .ok p)
    (hwf : Expression.wellFormedList ps = true) :
    translateExpressionList {} ps = .ok ps := by
  induction ps with
  | nil => rfl
  | cons q qs ih =>
    simp only [Expression.wellFormedList, Bool.and_eq_true] at hwf
    simp only [translateExpressionList, h q (by simp) hwf.1,
      ih (fun p hp => h p (by simp [hp])) hwf.2]

/-- Translating a well-formed expression through a registry with no user
rules (only the appended defaults) returns a structurally equal tree. -/
theorem translateExpression_defaults_identity (e : Expression)
    (hwf : e.wellFormed = true) :
    translateExpression {} e = .ok e := by
  revert hwf
  induction e using Expression.expressionInduction with
  | hcol a t c => intro _; rfl
  | hlit a v => intro _; rfl
  | harg a n => intro _; rfl
  | hfn a f ps ihps =>
    intro hwf
    simp only [Expression.wellFormed] at hwf
    have hlist := translateExpressionList_defaults_identity ps
      (fun p hp hpwf => ihps p hp hpwf) hwf
    simp only [translateExpression, mapExpression, attemptFirst, hlist]
  | hcur a inner ps ihinner ihps =>
    intro hwf
    simp only [Expression.wellFormed, Bool.and_eq_true] at hwf
    obtain ⟨⟨hkind, hinnerwf⟩, hpswf⟩ := hwf
    have hlist := translateExpressionList_defaults_identity ps
      (fun p hp hpwf => ihps p hp hpwf) hpswf
    cases inner with
    | functionCall fa fn fps =>
      have hinner := ihinner hinnerwf
      simp only [translateExpression, mapExpression, attemptFirst] at hinner ⊢
      simp only [hlist]
      cases hv : translateExpressionList {} fps with
      | error err => rw [hv] at hinner; simp at hinner
      | ok fps' =>
        rw [hv] at hinner
        simp only at hinner
        have : fps' = fps := by
          simpa [Except.ok.injEq, Expression.functionCall.injEq] using hinner
        subst this
        rfl
    | column _ _ _ => simp [Expression.isFunctionCall] at hkind
    | literal _ _ => simp [Expression.isFunctionCall] at hkind
    | argument _ _ => simp [Expression.isFunctionCall] at hkind
    | curriedFunctionCall _ _ _ => simp [Expression.isFunctionCall] at hkind
    | subscriptableReference _ _ _ => simp [Expression.isFunctionCall] at hkind
    | lambda _ _ _ => simp [Expression.isFunctionCall] at hkind
  | hsub a col key ihc ihk =>
    intro hwf
    simp only [Expression.wellFormed, Bool.and_eq_true] at hwf
    obtain ⟨⟨⟨hc, hk⟩, _⟩, _⟩ := hwf
    simp only [translateExpression, translate_column, translate_literal,
      mapExpression, attemptFirst, hc, hk]
    rfl
  | hlam a ns body ihb =>
    intro hwf
    simp only [Expression.wellFormed] at hwf
    simp only [translateExpression, mapExpression, attemptFirst, ihb hwf]

/-- Deep copying produces the same structural value, advances the counter,
and every address of the copy is fresh (drawn from `[n, n')`). -/
theorem deepcopyA_spec :
    ∀ (e : AExpr) (n : Nat),
      (deepcopyA n e).2.erase = e.erase
      ∧ n < (deepcopyA n e).1
      ∧ ∀ i ∈ (deepcopyA n e).2.ids, n ≤ i ∧ i < (deepcopyA n e).1 := by
  have hlist : ∀ (ps : List AExpr),
      (∀ p ∈ ps, ∀ m, (deepcopyA m p).2.erase = p.erase
        ∧ m < (deepcopyA m p).1
        ∧ ∀ i ∈ (deepcopyA m p).2.ids, m ≤ i ∧ i < (deepcopyA m p).1) →
      ∀ m, AExpr.eraseList (deepcopyListA m ps).2 = AExpr.eraseList ps
        ∧ m ≤ (deepcopyListA m ps).1
        ∧ ∀ i ∈ AExpr.idsList (deepcopyListA m ps).2,
            m ≤ i ∧ i < (deepcopyListA m ps).1 := by
    intro ps
    induction ps with
    | nil => intro _ m; exact ⟨rfl, Nat.le_refl m, by simp [deepcopyListA, AExpr.idsList]⟩
    | cons q qs ih =>
      intro h m
      obtain ⟨hq1, hq2, hq3⟩ := h q (by simp) m
      obtain ⟨hs1, hs2, hs3⟩ := ih (fun p hp => h p (by simp [hp])) (deepcopyA m q).1
      refine ⟨by simp [deepcopyListA, AExpr.eraseList, hq1, hs1], by
        simp only [deepcopyListA]; omega, ?_⟩
      intro i hi
      simp only [deepcopyListA, AExpr.idsList, List.mem_append] at hi
      rcases hi with hi | hi
      · have := hq3 i hi
        simp only [deepcopyListA]
        omega
      · have := hs3 i hi
        simp only [deepcopyListA]
        omega
  intro e
  induction e using AExpr.aexprInduction with
  | hcol i a t c =>
    intro n
    refine ⟨rfl, by simp [deepcopyA], ?_⟩
    intro j hj
    simp [deepcopyA, AExpr.ids] at hj ⊢
    omega
  | hlit i a v =>
    intro n
    refine ⟨rfl, by simp [deepcopyA], ?_⟩
    intro j hj
    simp [deepcopyA, AExpr.ids] at hj ⊢
    omega
  | harg i a nm =>
    intro n
    refine ⟨rfl, by simp [deepcopyA], ?_⟩
    intro j hj
    simp [deepcopyA, AExpr.ids] at hj ⊢
    omega
  | hfn i a f ps ihps =>
    intro n
    obtain ⟨h1, h2, h3⟩ := hlist ps (fun p hp m => ihps p hp m) (n + 1)
    refine ⟨by simp [deepcopyA, AExpr.erase, h1], by simp only [deepcopyA]; omega, ?_⟩
    intro j hj
    simp only [deepcopyA, AExpr.ids, List.mem_cons] at hj
    rcases hj with rfl | hj
    · simp only [deepcopyA]; omega
    · have := h3 j hj
      simp only [deepcopyA]
      omega
  | hcur i a inner ps ihinner ihps =>
    intro n
    obtain ⟨hi1, hi2, hi3⟩ := ihinner (n + 1)
    obtain ⟨h1, h2, h3⟩ := hlist ps (fun p hp m => ihps p hp m)
      (deepcopyA (n + 1) inner).1
    refine ⟨by simp [deepcopyA, AExpr.erase, hi1, h1],
      by simp only [deepcopyA]; omega, ?_⟩
    intro j hj
    simp only [deepcopyA, AExpr.ids, List.mem_cons, List.mem_append] at hj
    rcases hj with rfl | hj | hj
    · simp only [deepcopyA]; omega
    · have := hi3 j hj
      simp only [deepcopyA]
      omega
    · have := h3 j hj
      simp only [deepcopyA]
      omega
  | hsub i a col key ihc ihk =>
    intro n
    obtain ⟨hc1, hc2, hc3⟩ := ihc (n + 1)
    obtain ⟨hk1, hk2, hk3⟩ := ihk (deepcopyA (n + 1) col).1
    refine ⟨by simp [deepcopyA, AExpr.erase, hc1, hk1],
      by simp only [deepcopyA]; omega, ?_⟩
    intro j hj
    simp only [deepcopyA, AExpr.ids, List.mem_cons, List.mem_append] at hj
    rcases hj with rfl | hj | hj
    · simp only [deepcopyA]; omega
    · have := hc3 j hj
      simp only [deepcopyA]
      omega
    · have := hk3 j hj
      simp only [deepcopyA]
      omega
  | hlam i a ns body ihb =>
    intro n
    obtain ⟨hb1, hb2, hb3⟩ := ihb (n + 1)
    refine ⟨by simp [deepcopyA, AExpr.erase, hb1],
      by simp only [deepcopyA]; omega, ?_⟩
    intro j hj
    simp only [deepcopyA, AExpr.ids, List.mem_cons] at hj
    rcases hj with rfl | hj
    · simp only [deepcopyA]; omega
    · have := hb3 j hj
      simp only [deepcopyA]
      omega

/-- The defaults-only translation over addressed nodes succeeds on
well-formed input, preserves the structural value, and allocates every
node of its result freshly from the counter. -/
theorem translateDefaultsA_spec :
    ∀ (e : AExpr) (n : Nat), e.erase.wellFormed = true →
      ∃ n' e', translateDefaultsA n e = some (n', e')
        ∧ e'.erase = e.erase
        ∧ n ≤ n'
        ∧ ∀ i ∈ e'.ids, n ≤ i ∧ i < n' := by
  have hlist : ∀ (ps : List AExpr),
      (∀ p ∈ ps, ∀ m, p.erase.wellFormed = true →
        ∃ m' p', translateDefaultsA m p = some (m', p')
          ∧ p'.erase = p.erase ∧ m ≤ m'
          ∧ ∀ i ∈ p'.ids, m ≤ i ∧ i < m') →
      ∀ m, Expression.wellFormedList (AExpr.eraseList ps) = true →
        ∃ m' ps', translateDefaultsListA m ps = some (m', ps')
          ∧ AExpr.eraseList ps' = AExpr.eraseList ps ∧ m ≤ m'
          ∧ ∀ i ∈ AExpr.idsList ps', m ≤ i ∧ i < m' := by
    intro ps
    induction ps with
    | nil =>
      intro _ m _
      exact ⟨m, [], rfl, rfl, Nat.le_refl m, by simp [AExpr.idsList]⟩
    | cons q qs ih =>
      intro h m hwf
      simp only [AExpr.eraseList, Expression.wellFormedList,
        Bool.and_eq_true] at hwf
      obtain ⟨m1, q', hq, hq1, hq2, hq3⟩ := h q (by simp) m hwf.1
      obtain ⟨m2, qs', hqs, hqs1, hqs2, hqs3⟩ :=
        ih (fun p hp => h p (by simp [hp])) m1 hwf.2
      refine ⟨m2, q' :: qs', ?_, ?_, by omega, ?_⟩
      · simp only [translateDefaultsListA, hq, hqs]
      · simp [AExpr.eraseList, hq1, hqs1]
      · intro i hi
        simp only [AExpr.idsList, List.mem_append] at hi
        rcases hi with hi | hi
        · have := hq3 i hi; omega
        · have := hqs3 i hi; omega
  intro e
  induction e using AExpr.aexprInduction with
  | hcol i a t c =>
    intro n _
    obtain ⟨h1, h2, h3⟩ := deepcopyA_spec (.column i a t c) n
    exact ⟨_, _, rfl, h1, Nat.le_of_lt h2, h3⟩
  | hlit i a v =>
    intro n _
    obtain ⟨h1, h2, h3⟩ := deepcopyA_spec (.literal i a v) n
    exact ⟨_, _, rfl, h1, Nat.le_of_lt h2, h3⟩
  | harg i a nm =>
    intro n _
    obtain ⟨h1, h2, h3⟩ := deepcopyA_spec (.argument i a nm) n
    exact ⟨_, _, rfl, h1, Nat.le_of_lt h2, h3⟩
  | hfn i a f ps ihps =>
    intro n hwf
    simp only [AExpr.erase, Expression.wellFormed] at hwf
    obtain ⟨n1, ps', hps, h1, h2, h3⟩ :=
      hlist ps (fun p hp m hm => ihps p hp m hm) n hwf
    refine ⟨n1 + 1, .functionCall n1 a f ps', ?_, ?_, by omega, ?_⟩
    · simp only [translateDefaultsA, hps]
    · simp [AExpr.erase, h1]
    · intro j hj
      simp only [AExpr.ids, List.mem_cons] at hj
      rcases hj with rfl | hj
      · omega
      · have := h3 j hj; omega
  | hcur i a inner ps ihinner ihps =>
    intro n hwf
    simp only [AExpr.erase, Expression.wellFormed, Bool.and_eq_true] at hwf
    obtain ⟨⟨hkind, hinnerwf⟩, hpswf⟩ := hwf
    cases inner with
    | functionCall fi fa fn fps =>
      obtain ⟨n1, inner', hin, hin1, hin2, hin3⟩ :=
        ihinner n (by simpa [AExpr.erase] using hinnerwf)
      obtain ⟨n2, ps', hps, h1, h2, h3⟩ :=
        hlist ps (fun p hp m hm => ihps p hp m hm) n1 hpswf
      refine ⟨n2 + 1, .curriedFunctionCall n2 a inner' ps', ?_, ?_,
        by omega, ?_⟩
      · simp only [translateDefaultsA] at hin ⊢
        rw [hin]
        simp only [hps]
      · simp [AExpr.erase, hin1, h1]
      · intro j hj
        simp only [AExpr.ids, List.mem_cons, List.mem_append] at hj
        rcases hj with rfl | hj | hj
        · omega
        · have := hin3 j hj; omega
        · have := h3 j hj; omega
    | column _ _ _ _ => simp [AExpr.erase, Expression.isFunctionCall] at hkind
    | literal _ _ _ => simp [AExpr.erase, Expression.isFunctionCall] at hkind
    | argument _ _ _ => simp [AExpr.erase, Expression.isFunctionCall] at hkind
    | curriedFunctionCall _ _ _ _ =>
      simp [AExpr.erase, Expression.isFunctionCall] at hkind
    | subscriptableReference _ _ _ _ =>
      simp [AExpr.erase, Expression.isFunctionCall] at hkind
    | lambda _ _ _ _ => simp [AExpr.erase, Expression.isFunctionCall] at hkind
  | hsub i a col key ihc ihk =>
    intro n hwf
    simp only [AExpr.erase, Expression.wellFormed, Bool.and_eq_true] at hwf
    obtain ⟨⟨⟨hc, hk⟩, _⟩, _⟩ := hwf
    cases col with
    | column ci ca ct cc =>
      cases key with
      | literal ki ka kv =>
        refine ⟨n + 3,
          .subscriptableReference (n + 2) a (.column n ca ct cc)
            (.literal (n + 1) ka kv), rfl, rfl, by omega, ?_⟩
        intro j hj
        simp only [AExpr.ids, List.mem_cons, List.mem_append,
          List.mem_singleton] at hj
        rcases hj with rfl | hj | hj <;> simp_all
      | column _ _ _ _ => simp [AExpr.erase, Expression.isLiteral] at hk
      | argument _ _ _ => simp [AExpr.erase, Expression.isLiteral] at hk
      | functionCall _ _ _ _ => simp [AExpr.erase, Expression.isLiteral] at hk
      | curriedFunctionCall _ _ _ _ =>
        simp [AExpr.erase, Expression.isLiteral] at hk
      | subscriptableReference _ _ _ _ =>
        simp [AExpr.erase, Expression.isLiteral] at hk
      | lambda _ _ _ _ => simp [AExpr.erase, Expression.isLiteral] at hk
    | literal _ _ _ => simp [AExpr.erase, Expression.isColumn] at hc
    | argument _ _ _ => simp [AExpr.erase, Expression.isColumn] at hc
    | functionCall _ _ _ _ => simp [AExpr.erase, Expression.isColumn] at hc
    | curriedFunctionCall _ _ _ _ =>
      simp [AExpr.erase, Expression.isColumn] at hc
    | subscriptableReference _ _ _ _ =>
      simp [AExpr.erase, Expression.isColumn] at hc
    | lambda _ _ _ _ => simp [AExpr.erase, Expression.isColumn] at hc
  | hlam i a ns body ihb =>
    intro n hwf
    simp only [AExpr.erase, Expression.wellFormed] at hwf
    obtain ⟨n1, body', hb, hb1, hb2, hb3⟩ := ihb n hwf
    refine ⟨n1 + 1, .lambda n1 a ns body', ?_, ?_, by omega, ?_⟩
    · simp only [translateDefaultsA, hb]
    · simp [AExpr.erase, hb1]
    · intro j hj
      simp only [AExpr.ids, List.mem_cons] at hj
      rcases hj with rfl | hj
      · omega
      · have := hb3 j hj; omega

/-- C2 (default-rule identity with fresh copies): translating any
well-formed expression through a translator whose registry contains no
user rules (only the appended defaults) yields a tree structurally equal
to the input, and — over addressed nodes, with the counter past every
input address — no node of the output is held by an object of the input
tree. -/
theorem default_translation_identity_fresh (e : AExpr) (n : Nat)
    (hwf : e.erase.wellFormed = true) (hbound : ∀ i ∈ e.ids, i < n) :
    translateExpression {} e.erase = .ok e.erase
    ∧ ∃ n' e', translateDefaultsA n e = some (n', e')
        ∧ e'.erase = e.erase
        ∧ ∀ i ∈ e'.ids, ¬ i ∈ e.ids := by
  refine ⟨translateExpression_defaults_identity e.erase hwf, ?_⟩
  obtain ⟨n', e', h, h1, _, h3⟩ := translateDefaultsA_spec e n hwf
  refine ⟨n', e', h, h1, ?_⟩
  intro i hi hmem
  have := (h3 i hi).1
  have := hbound i hmem
  omega

/-- Witness for `default_translation_identity_fresh` at the concrete tree
`f(col)` (addresses 0 and 1, counter 10). -/
theorem default_translation_identity_fresh_witness :
    translateExpression {}
        (AExpr.functionCall 0 none "f" [AExpr.column 1 none none "c"]).erase
      = .ok (AExpr.functionCall 0 none "f" [AExpr.column 1 none none "c"]).erase
    ∧ ∃ n' e', translateDefaultsA 10
          (AExpr.functionCall 0 none "f" [AExpr.column 1 none none "c"])
        = some (n', e')
        ∧ e'.erase
          = (AExpr.functionCall 0 none "f" [AExpr.column 1 none none "c"]).erase
        ∧ ∀ i ∈ e'.ids,
            ¬ i ∈ (AExpr.functionCall 0 none "f"
              [AExpr.column 1 none none "c"]).ids :=
  default_translation_identity_fresh
    (.functionCall 0 none "f" [.column 1 none none "c"]) 10 (by rfl)
    (by decide)

/-- C4 (amended): for any result expression `x` a function rule produces —
`FunctionCall` or not — translating a curried call whose rule set maps the
inner function to `x` succeeds and returns a `CurriedFunctionCall` whose
internal function is `x`, unchecked. -/
theorem curried_inner_unchecked (x : Expression) (a fa : Option String)
    (fn : String) :
    translateExpression { functions := [fun _ => some x] }
        (.curriedFunctionCall a (.functionCall fa fn []) [])
      = .ok (.curriedFunctionCall a x []) := by
  rfl

/-! ## The structural matcher (`snuba/query/matchers.py`, modelled)

`snuba/query/matchers.py` is not part of the excerpt; the combinator
language below is modelled from spec section 4.2 and from the matcher
construction sites in `uuid_column_processor.py`. -/

/-- Modelled from the spec: matchers over scalar fields.  `strEq` is the
`String(value)` primitive (spec `Exact`), `anyOptionalString` matches an
absent value or any string, `orS` is `Or` over scalar alternatives. -/
inductive SMatcher where
  | strEq (s : String) : SMatcher
  | anyOptionalString : SMatcher
  | orS (alts : List SMatcher) : SMatcher
deriving Repr

/-- An optional-string field (alias, table name) seen as a scalar. -/
def optStrValue : Option String → Value
  | none => .null
  | some s => .str s

mutual

/-- Modelled from the spec: evaluating a scalar matcher against a scalar
field never raises; the result is a plain boolean. -/
def matchScalar : SMatcher → Value → Bool
  | .strEq s, v => v == .str s
  | .anyOptionalString, v =>
    (match v with
     | .null => true
     | .str _ => true
     | _ => false)
  | .orS alts, v => matchScalarList alts v

/-- First-match-wins over scalar alternatives. -/
def matchScalarList : List SMatcher → Value → Bool
  | [], _ => false
  | m :: ms, v => matchScalar m v || matchScalarList ms v

end

/-- Modelled from the spec: shape descriptors over expressions.  `param`
(`Param(name, inner)`) records the matched node under `name`; `orE` is
`Or` over expression alternatives; `columnM`/`literalM`/`functionCallM`
mirror the `Column`/`Literal`/`FunctionCall` shapes, each matching only a
node of the corresponding variant (a `none` field descriptor is a
"don't care").  `withOptionals` on a call shape permits the expression to
carry parameters beyond the listed descriptors, as required by the worked
example of spec sections 4.5/8 (`replaceAll(toString(col), '-', '')`
matched by a one-parameter shape with `with_optionals=True`). -/
inductive EMatcher where
  | param (name : String) (inner : EMatcher) : EMatcher
  | orE (alts : List EMatcher) : EMatcher
  | columnM (tableName : Option SMatcher)
      (columnName : Option SMatcher) : EMatcher
  | literalM (value : Option SMatcher) : EMatcher
  | functionCallM (functionName : Option SMatcher)
      (parameters : Option (List EMatcher)) (withOptionals : Bool) : EMatcher
deriving Repr

/-- The capture table produced by a successful match (spec: `MatchResult`,
a mapping from capture name to captured expression). -/
abbrev MatchResult := List (String × Expression)

/-- Accessor `MatchResult.contains(name)`. -/
def MatchResult.containsName (r : MatchResult) (name : String) : Bool :=
  r.any fun p => p.1 == name

/-- Accessor `MatchResult.expression(name)`; an absent name is a usage error in the
source, surfaced here as `none`. -/
def MatchResult.expressionOf (r : MatchResult) (name : String) :
    Option Expression :=
  (r.find? fun p => p.1 == name).map fun p => p.2

/-- A `none` field descriptor matches anything. -/
def matchScalarOpt : Option SMatcher → Value → Bool
  | none, _ => true
  | some m, v => matchScalar m v

mutual

/-- Modelled from the spec: `match(expression) → MatchResult | None`.  Any
shape mismatch — including a node of the wrong variant — yields `none`;
nested descriptors are matched positionally against the parameters. -/
def matchExpr : EMatcher → Expression → Option MatchResult
  | .param nm inner, e =>
    (match matchExpr inner e with
     | none => none
     | some r => some ((nm, e) :: r))
  | .orE alts, e => matchExprFirst alts e
  | .columnM tm cm, e =>
    (match e with
     | .column _ t c =>
       if matchScalarOpt tm (optStrValue t) && matchScalarOpt cm (.str c) then
         some []
       else none
     | _ => none)
  | .literalM vm, e =>
    (match e with
     | .literal _ v => if matchScalarOpt vm v then some [] else none
     | _ => none)
  | .functionCallM nm pms wopt, e =>
    (match e with
     | .functionCall _ f ps =>
       if matchScalarOpt nm (.str f) then
         match pms with
         | none => some []
         | some ms =>
           if wopt then
             if ms.length ≤ ps.length then matchExprParams ms ps else none
           else
             if ms.length = ps.length then matchExprParams ms ps else none
       else none
     | _ => none)

/-- Alternation (`Or`) over expression shapes: first structural match wins. -/
def matchExprFirst : List EMatcher → Expression → Option MatchResult
  | [], _ => none
  | m :: ms, e =>
    match matchExpr m e with
    | some r => some r
    | none => matchExprFirst ms e

/-- Positional matching of parameter descriptors against parameters,
concatenating the captures. -/
def matchExprParams : List EMatcher → List Expression → Option MatchResult
  | [], _ => some []
  | _ :: _, [] => none
  | m :: ms, p :: ps =>
    match matchExpr m p with
    | none => none
    | some r =>
      match matchExprParams ms ps with
      | none => none
      | some rs => some (r ++ rs)

end

/-- C5 (matcher no-throw law): for every expression and every shape
descriptor built from the combinator primitives, matching returns either a
capture table or `none` — it is a total function with no failure channel —
and a node of the wrong variant always yields `none`. -/
theorem matcher_no_throw :
    (∀ (m : EMatcher) (e : Expression),
      (∃ r, matchExpr m e = some r) ∨ matchExpr m e = none)
    ∧ (∀ tm cm (e : Expression), e.isColumn = false →
        matchExpr (.columnM tm cm) e = none)
    ∧ (∀ vm (e : Expression), e.isLiteral = false →
        matchExpr (.literalM vm) e = none)
    ∧ (∀ nm pms w (e : Expression), e.isFunctionCall = false →
        matchExpr (.functionCallM nm pms w) e = none) := by
  refine ⟨?_, ?_, ?_, ?_⟩
  · intro m e
    cases h : matchExpr m e with
    | some r => exact Or.inl ⟨r, rfl⟩
    | none => exact Or.inr rfl
  · intro tm cm e he
    cases e <;> simp_all [matchExpr, Expression.isColumn]
  · intro vm e he
    cases e <;> simp_all [matchExpr, Expression.isLiteral]
  · intro nm pms w e he
    cases e <;> simp_all [matchExpr, Expression.isFunctionCall]

/-- Witness for `matcher_no_throw`: wrong-variant mismatches at concrete
nodes. -/
theorem matcher_no_throw_witness :
    matchExpr (.columnM none none) (.literal none .null) = none
    ∧ matchExpr (.literalM none) (.column none none "c") = none
    ∧ matchExpr (.functionCallM none none false) (.column none none "c")
        = none :=
  ⟨matcher_no_throw.2.1 none none (.literal none .null) (by rfl),
   matcher_no_throw.2.2.1 none (.column none none "c") (by rfl),
   matcher_no_throw.2.2.2 none none false (.column none none "c") (by rfl)⟩

/-! ## The UUID column processor
(`snuba/query/processors/uuid_column_processor.py`) -/

/-- Modelled from the spec: `ConditionFunctions.IN` — the ClickHouse
function name of the `IN` condition (`snuba/query/conditions.py` is not
part of the excerpt). -/
def conditionFunctionIN : String := "in"

/-- Modelled from the spec: `ConditionFunctions.NOT_IN`. -/
def conditionFunctionNOT_IN : String := "notIn"

/-- Modelled from the spec: the keys of `FUNCTION_TO_OPERATOR`
(`snuba/query/conditions.py` is not part of the excerpt): the function
names of the binary condition operators, comprising the comparisons, the
pattern operators and the membership operators. -/
def functionToOperatorNames : List String :=
  ["equals", "notEquals", "greater", "less", "greaterOrEquals",
   "lessOrEquals", "like", "notLike", conditionFunctionIN,
   conditionFunctionNOT_IN]

/-- Modelled from the spec: `binary_condition(alias, function, lhs, rhs)`
builds the condition as a two-parameter function call
(`snuba/query/conditions.py` is not part of the excerpt). -/
def binary_condition (a : Option String) (functionName : String)
    (lhs rhs : Expression) : Expression :=
  .functionCall a functionName [lhs, rhs]

/-- The `Or([String(u_col) for u_col in uuid_columns])` column-name
matcher of the processor constructor (uuid_column_processor.py line 49). -/
def uuidColumnMatch (uuidColumns : List String) : SMatcher :=
  .orS (uuidColumns.map .strEq)

/-- Method `formatted_uuid_pattern` (uuid_column_processor.py lines 30-45):
`replaceAll(toString(<uuid column>), ...)` with the column captured under
`"formatted_uuid_column" + suffix`. -/
def formatted_uuid_pattern (uuidColumns : List String) (suffix : String) :
    EMatcher :=
  .functionCallM (some (.strEq "replaceAll"))
    (some [.functionCallM (some (.strEq "toString"))
      (some [.param ("formatted_uuid_column" ++ suffix)
        (.columnM none (some (uuidColumnMatch uuidColumns)))])
      false])
    true

/-- Matcher `self.uuid_in_condition` (uuid_column_processor.py lines 50-56). -/
def uuid_in_condition (uuidColumns : List String) : EMatcher :=
  .functionCallM
    (some (.orS [.strEq conditionFunctionIN, .strEq conditionFunctionNOT_IN]))
    (some [formatted_uuid_pattern uuidColumns "",
      .param "params" (.functionCallM (some (.strEq "tuple")) none false)])
    false

/-- Matcher `self.uuid_condition` (uuid_column_processor.py lines 57-79): a binary
condition whose operator is any condition function other than `IN`/
`NOT IN`, each side being either a captured string literal or the wrapped
uuid column. -/
def uuid_condition (uuidColumns : List String) : EMatcher :=
  .functionCallM
    (some (.orS ((functionToOperatorNames.filter fun op =>
      !(op == conditionFunctionIN || op == conditionFunctionNOT_IN)).map
        .strEq)))
    (some [.orE [.param "literal_0" (.literalM (some .anyOptionalString)),
        formatted_uuid_pattern uuidColumns "_0"],
      .orE [.param "literal_1" (.literalM (some .anyOptionalString)),
        formatted_uuid_pattern uuidColumns "_1"]])
    false

/-- Python `str()` of a scalar value, as applied to `lit.value` in
`parse_uuid`. -/
def valueToString : Value → String
  | .null => "None"
  | .bool b => if b then "True" else "False"
  | .int n => toString n
  | .str s => s

/-- Is the character a hexadecimal digit? -/
def isHexDigit (c : Char) : Bool :=
  c.isDigit || (('a' ≤ c && c ≤ 'f') || ('A' ≤ c && c ≤ 'F'))

/-- Lower-case a hexadecimal digit. -/
def hexLower (c : Char) : Char := c.toLower

/-- Modelled from the spec: `uuid.UUID(s)` followed by `str(...)` —
canonical UUID parsing (the `uuid` module is outside the excerpt).  Per
spec section 4.5/8, a well-formed UUID string (32 hexadecimal digits, with
optional dashes) parses and is rendered in the canonical dashed
`8-4-4-4-12` lower-case form; anything else fails to parse. -/
def uuidParse (s : String) : Option String :=
  let hex := s.toList.filter fun c => c ≠ '-'
  if hex.length = 32 ∧ hex.all isHexDigit then
    let l := hex.map hexLower
    some (String.mk (l.take 8) ++ "-"
      ++ String.mk ((l.drop 8).take 4) ++ "-"
      ++ String.mk ((l.drop 12).take 4) ++ "-"
      ++ String.mk ((l.drop 16).take 4) ++ "-"
      ++ String.mk (l.drop 20))
  else none

/-- Method `parse_uuid` (uuid_column_processor.py lines 81-89): a non-literal is
returned unchanged; a literal whose stringified value parses as a UUID is
rewritten to a literal holding the canonical string form; a parse failure
returns the literal unchanged. -/
def parse_uuid : Expression → Expression
  | .literal a v =>
    (match uuidParse (valueToString v) with
     | some canonical => .literal a (.str canonical)
     | none => .literal a v)
  | e => e

/-- The `for param in params_fn.parameters` loop of `process_condition`
(uuid_column_processor.py lines 103-111): abort (`none`, modelling the
early `return exp`) at the first non-literal parameter, otherwise collect
`parse_uuid` of every literal. -/
def convertTupleParams : List Expression → Option (List Expression)
  | [] => some []
  | p :: ps =>
    (match p with
     | .literal la lv =>
       (match convertTupleParams ps with
        | none => none
        | some ps' => some (parse_uuid (.literal la lv) :: ps'))
     | _ => none)

/-- One side of the binary-comparison rewrite (`process_condition`
lines 122-132): a captured literal is parsed, a captured wrapped column is
replaced by the bare captured column; `none` models the source's
`assert isinstance(column, Column)` (unreachable: the matcher only
captures columns there) and the absent-capture case. -/
def uuidConditionSide (result : MatchResult) (suffix : String) :
    Option Expression :=
  if result.containsName ("literal" ++ suffix) then
    (result.expressionOf ("literal" ++ suffix)).map parse_uuid
  else if result.containsName ("formatted_uuid_column" ++ suffix) then
    (match result.expressionOf ("formatted_uuid_column" ++ suffix) with
     | some (.column ca ct cc) => some (.column ca ct cc)
     | _ => none)
  else none

/-- Method `process_condition` (uuid_column_processor.py lines 91-136).  The
`some (.column ...)`/`some (.functionCall ...)` destructuring mirrors the
source's `assert isinstance(...)` statements; their fallback arms return
the input and are unreachable because the matcher only captures nodes of
those variants. -/
def process_condition (uuidColumns : List String) (exp : Expression) :
    Expression :=
  match exp with
  | .functionCall a f ps =>
    (match matchExpr (uuid_in_condition uuidColumns) (.functionCall a f ps) with
     | some result =>
       (match result.expressionOf "formatted_uuid_column",
           result.expressionOf "params" with
        | some (.column _ t c), some (.functionCall pa pf pps) =>
          (match convertTupleParams pps with
           | none => .functionCall a f ps
           | some newParams =>
             binary_condition a f (.column none t c)
               (.functionCall pa pf newParams))
        | _, _ => .functionCall a f ps)
     | none =>
       match matchExpr (uuid_condition uuidColumns) (.functionCall a f ps) with
       | some result =>
         (match uuidConditionSide result "_0", uuidConditionSide result "_1" with
          | some leftExp, some rightExp =>
            binary_condition a f leftExp rightExp
          | _, _ => .functionCall a f ps)
       | none => .functionCall a f ps)
  | e => e

/-- Membership in the configured uuid-column set makes the column-name
alternation match. -/
theorem matchScalarList_strEq_mem {cols : List String} {cc : String}
    (h : cc ∈ cols) :
    matchScalarList (cols.map .strEq) (.str cc) = true := by
  induction cols with
  | nil => simp at h
  | cons x xs ih =>
    rcases List.mem_cons.mp h with rfl | h'
    · simp [matchScalarList, matchScalar]
    · simp [matchScalarList, matchScalar, ih h']

/-- The `uuid_in_condition` matcher accepts exactly the shape
`<in|notIn>(replaceAll(toString(<uuid column>), ...), tuple(...))` and
captures the column and the tuple call. -/
theorem uuid_in_condition_match (cols : List String)
    (a ra ta ca pa : Option String) (op : String) (ct : Option String)
    (cc : String) (rest pps : List Expression)
    (hop : op = conditionFunctionIN ∨ op = conditionFunctionNOT_IN)
    (hcc : cc ∈ cols) :
    matchExpr (uuid_in_condition cols)
        (.functionCall a op
          [.functionCall ra "replaceAll"
            (.functionCall ta "toString" [.column ca ct cc] :: rest),
           .functionCall pa "tuple" pps])
      = some [("formatted_uuid_column", .column ca ct cc),
              ("params", .functionCall pa "tuple" pps)] := by
  have hcol := matchScalarList_strEq_mem hcc
  rcases hop with rfl | rfl <;>
    simp [uuid_in_condition, formatted_uuid_pattern, uuidColumnMatch,
      matchExpr, matchExprParams, matchScalarOpt, matchScalar,
      matchScalarList, hcol, conditionFunctionIN, conditionFunctionNOT_IN,
      Nat.le_add_left, optStrValue]

/-- When every tuple member is a literal, the conversion loop collects
`parse_uuid` of each. -/
theorem convertTupleParams_all_literal {pps : List Expression}
    (h : ∀ p ∈ pps, p.isLiteral = true) :
    convertTupleParams pps = some (pps.map parse_uuid) := by
  induction pps with
  | nil => rfl
  | cons p ps ih =>
    have hp := h p (by simp)
    cases p <;> simp [Expression.isLiteral] at hp
    simp [convertTupleParams, ih fun q hq => h q (by simp [hq])]

/-- A non-literal tuple member aborts the conversion loop. -/
theorem convertTupleParams_abort {pps : List Expression}
    (h : ∃ p ∈ pps, p.isLiteral = false) :
    convertTupleParams pps = none := by
  induction pps with
  | nil => simp at h
  | cons p ps ih =>
    obtain ⟨q, hq, hqlit⟩ := h
    rcases List.mem_cons.mp hq with rfl | hq'
    · cases q <;> simp [Expression.isLiteral] at hqlit <;>
        simp [convertTupleParams]
    · cases p with
      | literal la lv => simp [convertTupleParams, ih ⟨q, hq', hqlit⟩]
      | _ => simp [convertTupleParams]

/-- C6 (UUID rewrite of IN conditions): for an `IN`/`NOT IN` condition
whose left side matches `replaceAll(toString(<uuid column>), ...)` and
whose right side is a `tuple(...)` call: a non-literal tuple member makes
`process_condition` return the input unchanged; otherwise every tuple
literal is rewritten by `parse_uuid` (canonical dashed form on success,
unchanged on parse failure — final two conjuncts) and the wrapped column
is replaced by a bare column reference. -/
theorem uuid_in_rewrite (cols : List String)
    (a ra ta ca pa : Option String) (op : String) (ct : Option String)
    (cc : String) (rest pps : List Expression)
    (hop : op = conditionFunctionIN ∨ op = conditionFunctionNOT_IN)
    (hcc : cc ∈ cols) :
    ((∃ p ∈ pps, p.isLiteral = false) →
      process_condition cols
          (.functionCall a op
            [.functionCall ra "replaceAll"
              (.functionCall ta "toString" [.column ca ct cc] :: rest),
             .functionCall pa "tuple" pps])
        = .functionCall a op
            [.functionCall ra "replaceAll"
              (.functionCall ta "toString" [.column ca ct cc] :: rest),
             .functionCall pa "tuple" pps])
    ∧ ((∀ p ∈ pps, p.isLiteral = true) →
      process_condition cols
          (.functionCall a op
            [.functionCall ra "replaceAll"
              (.functionCall ta "toString" [.column ca ct cc] :: rest),
             .functionCall pa "tuple" pps])
        = binary_condition a op (.column none ct cc)
            (.functionCall pa "tuple" (pps.map parse_uuid)))
    ∧ (∀ (la : Option String) (v : Value),
        uuidParse (valueToString v) = none →
        parse_uuid (.literal la v) = .literal la v)
    ∧ (∀ (la : Option String) (v : Value) (s : String),
        uuidParse (valueToString v) = some s →
        parse_uuid (.literal la v) = .literal la (.str s)) := by
  have hmatch := uuid_in_condition_match cols a ra ta ca pa op ct cc rest pps
    hop hcc
  refine ⟨?_, ?_, ?_, ?_⟩
  · intro habort
    simp [process_condition, hmatch, MatchResult.expressionOf,
      convertTupleParams_abort habort]
  · intro hall
    simp [process_condition, hmatch, MatchResult.expressionOf,
      convertTupleParams_all_literal hall]
  · intro la v h
    simp [parse_uuid, h]
  · intro la v s h
    simp [parse_uuid, h]

/-- Witness for `uuid_in_rewrite` at the worked example of spec section 8:
`replaceAll(toString(event_id), '-', '') IN tuple('abcd...')` with one
well-formed and one malformed literal. -/
theorem uuid_in_rewrite_witness :
    process_condition ["event_id"]
        (.functionCall none "in"
          [.functionCall none "replaceAll"
            [.functionCall none "toString" [.column none none "event_id"],
             .literal none (.str "-"), .literal none (.str "")],
           .functionCall none "tuple"
             [.literal none (.str "abcdabcdabcdabcdabcdabcdabcdabcd"),
              .literal none (.str "not-a-uuid")]])
      = binary_condition none "in" (.column none none "event_id")
          (.functionCall none "tuple"
            ([.literal none (.str "abcdabcdabcdabcdabcdabcdabcdabcd"),
              .literal none (.str "not-a-uuid")].map parse_uuid)) :=
  (uuid_in_rewrite ["event_id"] none none none none none "in" none
    "event_id"
    [.literal none (.str "-"), .literal none (.str "")]
    [.literal none (.str "abcdabcdabcdabcdabcdabcdabcdabcd"),
     .literal none (.str "not-a-uuid")]
    (Or.inl rfl) (by simp)).2.1
    (by
      intro p hp
      rcases List.mem_cons.mp hp with rfl | hp'
      · rfl
      · simp only [List.mem_singleton] at hp'
        subst hp'
        rfl)

/-! ## The post-replacement consistency enforcer
(`snuba/datasets/storages/processors/replaced_groups.py`) -/

/-- A Python value as occurring in legacy (pre-AST) condition triples,
e.g. the left side `["assumeNotNull", ["group_id"]]`. -/
inductive PValue where
  | s (v : String) : PValue
  | l (vs : List PValue) : PValue
deriving Repr

mutual

/-- Python `==` on legacy condition values. -/
def PValue.pbeq : PValue → PValue → Bool
  | .s v, .s v' => v == v'
  | .l vs, .l vs' => PValue.pbeqList vs vs'
  | _, _ => false

/-- Python `==` on lists of legacy condition values. -/
def PValue.pbeqList : List PValue → List PValue → Bool
  | [], [] => true
  | x :: xs, y :: ys => x.pbeq y && PValue.pbeqList xs ys
  | _, _ => false

end

/-- A legacy condition triple `(lhs, op, rhs)`; the processor only reads
and writes triples whose right side is a group-id list. -/
structure LegacyCondition where
  lhs : PValue
  op : String
  rhs : List Int
deriving Repr

/-- Modelled from the spec: `snuba.util.is_condition` (not part of the
excerpt) tells a condition triple from a nested list of conditions; the
entries of this model are always triples, for which it holds. -/
def is_condition (_c : LegacyCondition) : Bool := true

/-- The mutable `Query` container (external collaborator, spec section 6):
the AST condition list (`add_condition_to_ast`), the legacy condition list
(`get_conditions`/`add_conditions`) and the FINAL flag
(`get_final`/`set_final`). -/
structure QueryState where
  astConditions : List Expression
  legacyConditions : List LegacyCondition
  finalFlag : Bool
deriving Repr

/-- Modelled from the spec: `not_in_condition(alias, lhs, rhs_literals)`
(`snuba/query/conditions.py` is not part of the excerpt) builds the
`NOT IN` condition with the right side as a literals tuple. -/
def not_in_condition (a : Option String) (lhs : Expression)
    (rhs : List Expression) : Expression :=
  binary_condition a conditionFunctionNOT_IN lhs
    (.functionCall none "tuple" rhs)

/-- Expression `FunctionCall(None, "assumeNotNull", (Column(None, "group_id", None),))`
(replaced_groups.py lines 78-80); the column is the `group_id` column. -/
def groupIdAstLhs : Expression :=
  .functionCall none "assumeNotNull" [.column none none "group_id"]

/-- The AST-side group exclusion condition added at replaced_groups.py
lines 75-83. -/
def groupExclusionAst (ids : List Int) : Expression :=
  not_in_condition none groupIdAstLhs (ids.map fun p => .literal none (.int p))

/-- Value `["assumeNotNull", ["group_id"]]` (replaced_groups.py line 71). -/
def groupIdLegacyLhs : PValue := .l [.s "assumeNotNull", .l [.s "group_id"]]

/-- The legacy `condition_to_add` triple (replaced_groups.py lines 70-74). -/
def groupExclusionLegacy (ids : List Int) : LegacyCondition :=
  ⟨groupIdLegacyLhs, "NOT IN", ids⟩

/-- Lines 55-85 of `process_query`: compute `set_final` and
`condition_to_add` from the oracle flags, adding the AST-side exclusion
condition (line 75) to the query as a side effect — before, and regardless
of, the activation check. -/
def enforcerDecision (pids : List Int) (flags : Bool × List Int)
    (maxExclude : Nat) (q : QueryState) :
    Bool × Option (List Int) × QueryState :=
  if pids.isEmpty then (false, none, q)
  else
    let final := flags.1
    let excl := flags.2
    if final = false ∧ excl ≠ [] then
      if excl.length > maxExclude then (true, none, q)
      else (false, some excl,
        { q with astConditions := q.astConditions ++ [groupExclusionAst excl] })
    else (final, none, q)

/-- Lines 91-135 of `process_query`: the shadow comparison of the computed
decision against the query's existing (legacy) state, emitting metric
increments and leaving the query as it stands. -/
def shadowComparison (setFinal : Bool) (condToAdd : Option (List Int))
    (q1 : QueryState) : Except Unit (QueryState × List String) :=
  let metricsFinal :=
    if setFinal ≠ q1.finalFlag then ["mismatch.final"] else []
  let existing := (q1.legacyConditions.filter fun c =>
    is_condition c && c.lhs.pbeq groupIdLegacyLhs
      && (c.op == "NOT IN")).map fun c => c.rhs
  if existing.length > 1 then
    .ok (q1, metricsFinal ++ ["mismatch.multiple_group_condition"])
  else
    let metricsGroup :=
      if condToAdd ≠ existing.head? then ["mismatch.group_id"] else []
    .ok (q1, metricsFinal ++ metricsGroup ++
      (if metricsFinal.isEmpty && metricsGroup.isEmpty then ["match"]
       else []))

/-- Method `PostReplacementConsistencyEnforcer.process_query` (replaced_groups.py
lines 41-135), with the external collaborators passed as explicit inputs:
`turbo` is `request_settings.get_turbo()`; `activated` is
`get_config(CONSISTENCY_ENFORCER_PROCESSOR_ENABLED, 0)`; `projectIds` is
the result of `get_project_ids_in_query` (`none` models that call
raising); `flags` is the `(final, exclude_group_ids)` pair returned by the
replacement-state oracle `get_projects_query_flags`; `maxExclude` is
`get_config("max_group_ids_exclude", ...)`.  The result pairs the final
query state with the emitted metric increments; `.error ()` models the
lookup exception re-raised on the active path (line 50). -/
def processQuery (turbo activated : Bool) (projectIds : Option (List Int))
    (flags : Bool × List Int) (maxExclude : Nat) (q : QueryState) :
    Except Unit (QueryState × List String) :=
  if turbo then .ok (q, [])
  else
    match projectIds with
    | none => if activated then .error () else .ok (q, [])
    | some pids =>
      let dec := enforcerDecision pids flags maxExclude q
      let setFinal := dec.1
      let condToAdd := dec.2.1
      let q1 := dec.2.2
      if activated then
        -- lines 87-90: apply the decision to the query.
        .ok ({ q1 with
          finalFlag := setFinal
          legacyConditions := q1.legacyConditions ++
            (match condToAdd with
             | some ids => [groupExclusionLegacy ids]
             | none => []) }, [])
      else
        shadowComparison setFinal condToAdd q1

/-- The decision when the count of excluded groups exceeds the limit:
force FINAL, no exclusion condition, query untouched. -/
theorem enforcerDecision_over_limit (pids excl : List Int)
    (maxExclude : Nat) (q : QueryState) (hpids : pids ≠ [])
    (hexcl : excl ≠ []) (hgt : excl.length > maxExclude) :
    enforcerDecision pids (false, excl) maxExclude q = (true, none, q) := by
  unfold enforcerDecision
  rw [if_neg (by simpa [List.isEmpty_iff] using hpids)]
  simp only
  rw [if_pos (by simp [hexcl]), if_pos hgt]

/-- The decision when the count of excluded groups is within the limit:
FINAL stays false and the exclusion condition is added to the AST. -/
theorem enforcerDecision_within_limit (pids excl : List Int)
    (maxExclude : Nat) (q : QueryState) (hpids : pids ≠ [])
    (hexcl : excl ≠ []) (hle : excl.length ≤ maxExclude) :
    enforcerDecision pids (false, excl) maxExclude q
      = (false, some excl,
          { q with astConditions :=
              q.astConditions ++ [groupExclusionAst excl] }) := by
  unfold enforcerDecision
  rw [if_neg (by simpa [List.isEmpty_iff] using hpids)]
  simp only
  rw [if_pos (by simp [hexcl]), if_neg (by omega)]

/-- The shadow comparison always succeeds and never changes the query it
is given. -/
theorem shadowComparison_shape (setFinal : Bool)
    (condToAdd : Option (List Int)) (q1 : QueryState) :
    ∃ ms, shadowComparison setFinal condToAdd q1 = .ok (q1, ms) := by
  unfold shadowComparison
  dsimp only
  split
  · exact ⟨_, rfl⟩
  · exact ⟨_, rfl⟩

/-- C7 (consistency enforcer bound): when the replacement-state lookup
reports `final = false` with a non-empty excluded-group set, a count above
`max_group_ids_exclude` makes the processor decide FINAL (applied to the
query when active) and add no exclusion condition, while a count within
the limit adds exactly one `group_id NOT IN (<ids>)` condition listing
those ids and leaves the FINAL decision false. -/
theorem consistency_enforcer_bound (activated : Bool) (pids excl : List Int)
    (maxExclude : Nat) (q : QueryState) (hpids : pids ≠ [])
    (hexcl : excl ≠ []) :
    (excl.length > maxExclude →
      ∃ q' ms,
        processQuery false activated (some pids) (false, excl) maxExclude q
          = .ok (q', ms)
        ∧ q'.astConditions = q.astConditions
        ∧ q'.legacyConditions = q.legacyConditions
        ∧ q'.finalFlag = (if activated then true else q.finalFlag))
    ∧ (excl.length ≤ maxExclude →
      ∃ q' ms,
        processQuery false activated (some pids) (false, excl) maxExclude q
          = .ok (q', ms)
        ∧ q'.astConditions = q.astConditions ++ [groupExclusionAst excl]
        ∧ q'.legacyConditions = q.legacyConditions
            ++ (if activated then [groupExclusionLegacy excl] else [])
        ∧ q'.finalFlag = (if activated then false else q.finalFlag)) := by
  constructor
  · intro hgt
    have hdec := enforcerDecision_over_limit pids excl maxExclude q hpids
      hexcl hgt
    cases activated with
    | true =>
      refine ⟨⟨q.astConditions, q.legacyConditions ++ [], true⟩,
        [], ?_, rfl, by simp, by simp⟩
      simp [processQuery, hdec]
    | false =>
      obtain ⟨ms, hms⟩ := shadowComparison_shape true none q
      refine ⟨q, ms, ?_, rfl, rfl, by simp⟩
      simpa [processQuery, hdec] using hms
  · intro hle
    have hdec := enforcerDecision_within_limit pids excl maxExclude q hpids
      hexcl hle
    cases activated with
    | true =>
      refine ⟨⟨q.astConditions ++ [groupExclusionAst excl],
          q.legacyConditions ++ [groupExclusionLegacy excl], false⟩,
        [], ?_, rfl, by simp, by simp⟩
      simp [processQuery, hdec]
    | false =>
      obtain ⟨ms, hms⟩ := shadowComparison_shape false (some excl)
        { q with astConditions := q.astConditions ++ [groupExclusionAst excl] }
      refine ⟨⟨q.astConditions ++ [groupExclusionAst excl],
          q.legacyConditions, q.finalFlag⟩,
        ms, ?_, rfl, by simp, by simp⟩
      simpa [processQuery, hdec] using hms

/-- Witness for `consistency_enforcer_bound`: the concrete scenario of
spec section 8 (`max_group_ids_exclude = 2`, three versus one excluded
group, active mode). -/
theorem consistency_enforcer_bound_witness :
    (∃ q' ms,
      processQuery false true (some [1]) (false, [10, 11, 12]) 2
          ⟨[], [], false⟩
        = .ok (q', ms)
      ∧ q'.astConditions = QueryState.astConditions ⟨[], [], false⟩
      ∧ q'.legacyConditions = QueryState.legacyConditions ⟨[], [], false⟩
      ∧ q'.finalFlag = (if true then true else false))
    ∧ (∃ q' ms,
      processQuery false true (some [1]) (false, [10]) 2 ⟨[], [], false⟩
        = .ok (q', ms)
      ∧ q'.astConditions = [] ++ [groupExclusionAst [10]]
      ∧ q'.legacyConditions
          = [] ++ (if true then [groupExclusionLegacy [10]] else [])
      ∧ q'.finalFlag = (if true then false else false)) :=
  ⟨(consistency_enforcer_bound true [1] [10, 11, 12] 2 ⟨[], [], false⟩
      (by decide) (by decide)).1 (by decide),
   (consistency_enforcer_bound true [1] [10] 2 ⟨[], [], false⟩
      (by decide) (by decide)).2 (by decide)⟩

/-- C8 (counterexample): in shadow mode (activation config off) the
processor still mutates the query: with one excluded group within the
limit, the `group_id NOT IN` condition is appended to the query's AST
conditions even though only the legacy extension is supposed to have
modified the query. -/
theorem shadow_mode_mutates_counterexample :
    processQuery false false (some [1]) (false, [42]) 100 ⟨[], [], false⟩
      = .ok (⟨[groupExclusionAst [42]], [], false⟩, ["mismatch.group_id"])
    ∧ [groupExclusionAst [42]] ≠ ([] : List Expression) :=
  ⟨rfl, by simp⟩

/-- C8 (amended): in shadow mode the processor never errors, never sets
the FINAL flag, never adds a legacy condition, and only emits comparison
metrics — but it does append the decided group-exclusion condition to the
query's AST conditions when the decision calls for one. -/
theorem shadow_mode_effects (turbo : Bool) (projectIds : Option (List Int))
    (flags : Bool × List Int) (maxExclude : Nat) (q : QueryState) :
    ∃ q' ms,
      processQuery turbo false projectIds flags maxExclude q = .ok (q', ms)
      ∧ q'.finalFlag = q.finalFlag
      ∧ q'.legacyConditions = q.legacyConditions
      ∧ (q'.astConditions = q.astConditions
         ∨ q'.astConditions
             = q.astConditions ++ [groupExclusionAst flags.2]) := by
  cases turbo with
  | true => exact ⟨q, [], rfl, rfl, rfl, Or.inl rfl⟩
  | false =>
    cases projectIds with
    | none => exact ⟨q, [], rfl, rfl, rfl, Or.inl rfl⟩
    | some pids =>
      obtain ⟨ms, hms⟩ := shadowComparison_shape
        (enforcerDecision pids flags maxExclude q).1
        (enforcerDecision pids flags maxExclude q).2.1
        (enforcerDecision pids flags maxExclude q).2.2
      refine ⟨(enforcerDecision pids flags maxExclude q).2.2, ms, ?_, ?_, ?_, ?_⟩
      · simpa [processQuery] using hms
      · unfold enforcerDecision
        split
        · rfl
        · dsimp only
          split
          · split <;> rfl
          · rfl
      · unfold enforcerDecision
        split
        · rfl
        · dsimp only
          split
          · split <;> rfl
          · rfl
      · unfold enforcerDecision
        split
        · exact Or.inl rfl
        · dsimp only
          split
          · split
            · exact Or.inl rfl
            · exact Or.inr rfl
          · exact Or.inl rfl

/-- C10 (turbo short-circuit): with turbo settings the processor returns
immediately: the query is untouched, no metric is emitted, no error can
propagate, and the result does not depend on the replacement-state oracle
or the configuration. -/
theorem turbo_short_circuit (activated : Bool)
    (projectIds : Option (List Int)) (flags : Bool × List Int)
    (maxExclude : Nat) (q : QueryState) :
    processQuery true activated projectIds flags maxExclude q
      = .ok (q, []) := rfl

/-! ## The older condition AST (`snuba/query/conditions.py`, exercised by
`tests/query/test_conditions.py`)

`snuba/query/conditions.py` and the expression classes it builds on are
not part of the excerpt; the types below are modelled from spec section 3
and from every construction and assertion in
`tests/query/test_conditions.py`, which pin the iteration order and —
decisively for claim C9 — that `get_expressions().transform(f)` mutates
the condition in place: after the call, iterating the same condition
yields the transformed sequence. -/

/-- The expressions of the older AST, as constructed by the tests:
`Column(column_name, table_name)`, `FunctionCall(name, parameters)`,
`AliasedExpression(alias, inner)`. -/
inductive QExpr where
  | column (columnName tableName : String) : QExpr
  | functionCall (name : String) (parameters : List QExpr) : QExpr
  | aliasedExpression (aliasName : String) (inner : QExpr) : QExpr
deriving Repr

/-- The binary condition operators (spec section 3); the tests exercise
`Operator.EQ`. -/
inductive Operator where
  | eq : Operator
  | neq : Operator
  | gt : Operator
  | lt : Operator
deriving Repr, DecidableEq

/-- The older condition AST: `BasicCondition(lhs, operator, rhs)`,
`AndCondition(operands)`, `OrCondition(operands)`. -/
inductive Condition where
  | basic (lhs : QExpr) (operator : Operator) (rhs : QExpr) : Condition
  | and (operands : List Condition) : Condition
  | or (operands : List Condition) : Condition
deriving Repr

mutual

/-- Pre-order iteration of an expression: the node itself, then its
descendants left to right (pinned by
`test_aliased_expressions_from_basic_condition`: `[al1, f1, c, al2, c2]`). -/
def QExpr.iterate : QExpr → List QExpr
  | .column c t => [.column c t]
  | .functionCall n ps => .functionCall n ps :: QExpr.iterateList ps
  | .aliasedExpression a i => .aliasedExpression a i :: i.iterate

/-- Pre-order iteration of a parameter list. -/
def QExpr.iterateList : List QExpr → List QExpr
  | [] => []
  | e :: es => e.iterate ++ QExpr.iterateList es

end

mutual

/-- Method `get_expressions()`: the expressions reachable through
`lhs`/`rhs`/nested conditions in declaration order (pinned by
`test_expressions_from_basic_condition` and
`test_nested_simple_condition`). -/
def Condition.getExpressions : Condition → List QExpr
  | .basic lhs _ rhs => lhs.iterate ++ rhs.iterate
  | .and cs => Condition.getExpressionsList cs
  | .or cs => Condition.getExpressionsList cs

/-- Iteration over a list of nested conditions. -/
def Condition.getExpressionsList : List Condition → List QExpr
  | [] => []
  | c :: cs => c.getExpressions ++ Condition.getExpressionsList cs

end

mutual

/-- The rewrite applied to one expression by
`get_expressions().transform(f)`: children first, then `f` on the rebuilt
node (spec section 4.1: innermost first). -/
def QExpr.transformExpr (f : QExpr → QExpr) : QExpr → QExpr
  | .column c t => f (.column c t)
  | .functionCall n ps => f (.functionCall n (QExpr.transformList f ps))
  | .aliasedExpression a i => f (.aliasedExpression a (i.transformExpr f))

/-- The rewrite of a parameter list. -/
def QExpr.transformList (f : QExpr → QExpr) : List QExpr → List QExpr
  | [] => []
  | e :: es => e.transformExpr f :: QExpr.transformList f es

end

mutual

/-- Call `get_expressions().transform(f)` mutates the condition in place; this
function is the state of the condition after the call (the tests assert
that re-iterating the same condition afterwards yields the transformed
sequence). -/
def Condition.transform (f : QExpr → QExpr) : Condition → Condition
  | .basic lhs op rhs =>
      .basic (lhs.transformExpr f) op (rhs.transformExpr f)
  | .and cs => .and (Condition.transformConditionList f cs)
  | .or cs => .or (Condition.transformConditionList f cs)

/-- Transformation of the nested conditions of an `AND`/`OR`. -/
def Condition.transformConditionList (f : QExpr → QExpr) :
    List Condition → List Condition
  | [] => []
  | c :: cs => c.transform f :: Condition.transformConditionList f cs

end

/-- The `replace_col` closure of
`test_map_expressions_in_basic_condition`: rewrite the column named `c1`
to the fixed column `c3` of table `t1`; leave everything else alone. -/
def replace_col (e : QExpr) : QExpr :=
  match e with
  | .column c t => if c == "c1" then .column "c3" "t1" else .column c t
  | e => e

/-- The condition of `test_map_expressions_in_basic_condition`:
`BasicCondition(FunctionCall("f", [Column("c1", "t1")]), EQ,
Column("c2", "t1"))`. -/
def testCondition : Condition :=
  .basic (.functionCall "f" [.column "c1" "t1"]) .eq (.column "c2" "t1")

/-- C9 (counterexample): `transform` mutates the condition in place — at
the repository's own test scenario, re-iterating the condition after the
call yields the transformed sequence (exactly what
`test_map_expressions_in_basic_condition` asserts), which differs from the
pre-call sequence; so the claim that the original tree re-iterates
unchanged after the call is false. -/
theorem transform_mutates_counterexample :
    Condition.getExpressions (Condition.transform replace_col testCondition)
      = [.functionCall "f" [.column "c3" "t1"], .column "c3" "t1",
         .column "c2" "t1"]
    ∧ Condition.getExpressions testCondition
      = [.functionCall "f" [.column "c1" "t1"], .column "c1" "t1",
         .column "c2" "t1"]
    ∧ Condition.getExpressions
          (Condition.transform replace_col testCondition)
        ≠ Condition.getExpressions testCondition := by
  refine ⟨rfl, rfl, ?_⟩
  intro h
  simp [Condition.transform, Condition.getExpressions, QExpr.transformExpr,
    QExpr.transformList, QExpr.iterate, QExpr.iterateList, replace_col,
    testCondition] at h

/-- Identity-shaped size induction for the older expression AST. -/
theorem QExpr.qexprInduction {P : QExpr → Prop}
    (hcol : ∀ c t, P (.column c t))
    (hfn : ∀ n ps, (∀ p ∈ ps, P p) → P (.functionCall n ps))
    (hal : ∀ a i, P i → P (.aliasedExpression a i)) :
    ∀ e, P e := by
  have main : ∀ n (e : QExpr), sizeOf e ≤ n → P e := by
    intro n
    induction n with
    | zero => intro e h; cases e <;> simp at h
    | succ n ih =>
      intro e h
      cases e with
      | column c t => exact hcol c t
      | functionCall nm ps =>
        refine hfn nm ps fun p hp => ih p ?_
        have := List.sizeOf_lt_of_mem hp
        simp at h; omega
      | aliasedExpression a i =>
        refine hal a i (ih i ?_); simp at h; omega
  exact fun e => main (sizeOf e) e (Nat.le_refl _)

/-- Identity-shaped size induction for the older condition AST. -/
theorem Condition.conditionInduction {P : Condition → Prop}
    (hbasic : ∀ lhs op rhs, P (.basic lhs op rhs))
    (hand : ∀ cs, (∀ c ∈ cs, P c) → P (.and cs))
    (hor : ∀ cs, (∀ c ∈ cs, P c) → P (.or cs)) :
    ∀ c, P c := by
  have main : ∀ n (c : Condition), sizeOf c ≤ n → P c := by
    intro n
    induction n with
    | zero => intro c h; cases c <;> simp at h
    | succ n ih =>
      intro c h
      cases c with
      | basic lhs op rhs => exact hbasic lhs op rhs
      | and cs =>
        refine hand cs fun c hc => ih c ?_
        have := List.sizeOf_lt_of_mem hc
        simp at h; omega
      | or cs =>
        refine hor cs fun c hc => ih c ?_
        have := List.sizeOf_lt_of_mem hc
        simp at h; omega
  exact fun c => main (sizeOf c) c (Nat.le_refl _)

/-- The identity function transforms every expression to itself. -/
theorem transformExpr_id (e : QExpr) :
    QExpr.transformExpr (fun x => x) e = e := by
  induction e using QExpr.qexprInduction with
  | hcol c t => rfl
  | hfn n ps ihps =>
    simp only [QExpr.transformExpr, QExpr.functionCall.injEq, true_and]
    induction ps with
    | nil => rfl
    | cons p pst ihtail =>
      simp only [QExpr.transformList, List.cons.injEq]
      exact ⟨ihps p (by simp), ihtail fun x hx => ihps x (by simp [hx])⟩
  | hal a i ihi => simp only [QExpr.transformExpr, ihi]

/-- C9 (amended): `transform(f)` applies `f` to every expression of the
condition, innermost first, and mutates the condition in place: a
transform with the identity function leaves the condition unchanged; a
basic condition afterwards holds the transformed sides; and at the
repository's test scenario the post-call iteration is the transformed
sequence (not the original one). -/
theorem transform_applies_f_in_place :
    (∀ cond : Condition, Condition.transform (fun x => x) cond = cond)
    ∧ (∀ (f : QExpr → QExpr) (lhs rhs : QExpr) (op : Operator),
        Condition.transform f (.basic lhs op rhs)
          = .basic (QExpr.transformExpr f lhs) op
              (QExpr.transformExpr f rhs))
    ∧ Condition.getExpressions
          (Condition.transform replace_col testCondition)
        = [.functionCall "f" [.column "c3" "t1"], .column "c3" "t1",
           .column "c2" "t1"] := by
  refine ⟨?_, fun _ _ _ _ => rfl, rfl⟩
  intro cond
  induction cond using Condition.conditionInduction with
  | hbasic lhs op rhs =>
    simp only [Condition.transform, transformExpr_id]
  | hand cs ihcs =>
    simp only [Condition.transform, Condition.and.injEq]
    induction cs with
    | nil => rfl
    | cons c cst ihtail =>
      simp only [Condition.transformConditionList, List.cons.injEq]
      exact ⟨ihcs c (by simp), ihtail fun x hx => ihcs x (by simp [hx])⟩
  | hor cs ihcs =>
    simp only [Condition.transform, Condition.or.injEq]
    induction cs with
    | nil => rfl
    | cons c cst ihtail =>
      simp only [Condition.transformConditionList, List.cons.injEq]
      exact ⟨ihcs c (by simp), ihtail fun x hx => ihcs x (by simp [hx])⟩

end Snuba
